import Mathlib

/-!
Verification of the llm4test repository's core algorithms against its
natural-language specification.

The Python source is shallowly embedded: strings are `List Char` (named
`Str`), Python's fallible operations return `Option`/`Except`, and the
specific regular expressions used by the code are translated into
deterministic scanners (or a small backtracking matcher where the pattern
genuinely backtracks), each documented with the exact pattern it embeds.
Floating-point distance scores are modelled as integers scaled by 100
(0.1 becomes 10, 1.0 becomes 100): every comparison the code performs on
its fixed score constants is order-preserved by this scaling.
-/

set_option maxRecDepth 40000

namespace LLM4Test

/-- Python strings are embedded as lists of characters. -/
abbrev Str := List Char

/-- Convert a Lean string literal to the embedded representation. -/
def lit (s : String) : Str := s.toList

/-- Left brace character (written via its code point). -/
def lbrace : Char := Char.ofNat 123

/-- Right brace character (written via its code point). -/
def rbrace : Char := Char.ofNat 125

/-- Python's `\s` / `str.strip` whitespace set (ASCII part). -/
def isSpc (c : Char) : Bool :=
  c = ' ' || c = '\t' || c = '\n' || c = '\r' || c = Char.ofNat 11 || c = Char.ofNat 12

/-- Python's regex word character `\w` (ASCII part): letters, digits, underscore. -/
def isWordChar (c : Char) : Bool :=
  c.isAlphanum || c = '_'

/-- Python `str.strip()`: drop whitespace from both ends. -/
def pyStrip (s : Str) : Str :=
  ((s.dropWhile isSpc).reverse.dropWhile isSpc).reverse

/-- Accumulator loop for Python `str.split()` with no argument. -/
def pySplitWsGo : Str → Str → List Str
  | [], cur => if cur = [] then [] else [cur.reverse]
  | c :: rest, cur =>
    if isSpc c then (if cur = [] then [] else [cur.reverse]) ++ pySplitWsGo rest []
    else pySplitWsGo rest (c :: cur)

/-- Python `str.split()` with no argument: split on runs of whitespace, no empties. -/
def pySplitWs (s : Str) : List Str := pySplitWsGo s []

/-- State-machine loop collapsing whitespace runs; the flag records whether
the scanner is inside a run. -/
def collapseWsGo : Bool → Str → Str
  | _, [] => []
  | inRun, c :: rest =>
    if isSpc c then
      if inRun then collapseWsGo true rest else ' ' :: collapseWsGo true rest
    else c :: collapseWsGo false rest

/-- Collapse runs of whitespace to a single space: `re.sub(r'\s+', ' ', s)`. -/
def collapseWs (s : Str) : Str := collapseWsGo false s

/-- The signature normalisation `re.sub(r'\s+', ' ', signature.strip())`. -/
def normalizeWs (s : Str) : Str := collapseWs (pyStrip s)

/-- Python `sub in s` substring test. -/
def containsSub (sub s : Str) : Bool := decide (List.IsInfix sub s)

/-- Python `s.startswith(p)` / regex literal match. -/
def startsWith (p s : Str) : Bool := p.isPrefixOf s

namespace JavaSignatureParser

/-- Leftmost match of `re.search(r'\(([^)]*)\)', s)`: the first `(` that is
followed by a later `)`, capturing the (greedy, `)`-free) text between. -/
def parenContent : Str → Option Str
  | [] => none
  | c :: rest =>
    if c = '(' then
      if (rest.dropWhile (fun d => ¬ d = ')')) ≠ [] then
        some (rest.takeWhile (fun d => ¬ d = ')'))
      else parenContent rest
    else parenContent rest

/-- State-carrying loop of `_parse_parameters`: split on commas at zero
angle-bracket and parenthesis depth, stripping and dropping empties. -/
def parseParametersGo : Str → Int → Int → Str → List Str
  | [], _, _, cur =>
    if pyStrip cur.reverse ≠ [] then [pyStrip cur.reverse] else []
  | c :: rest, brk, ang, cur =>
    if c = '<' then parseParametersGo rest brk (ang + 1) (c :: cur)
    else if c = '>' then parseParametersGo rest brk (ang - 1) (c :: cur)
    else if c = '(' then parseParametersGo rest (brk + 1) ang (c :: cur)
    else if c = ')' then parseParametersGo rest (brk - 1) ang (c :: cur)
    else if c = ',' ∧ brk = 0 ∧ ang = 0 then
      (if pyStrip cur.reverse ≠ [] then [pyStrip cur.reverse] else [])
        ++ parseParametersGo rest brk ang []
    else parseParametersGo rest brk ang (c :: cur)

/-- `_parse_parameters`: comma-split a parameter string respecting nesting. -/
def parseParameters (s : Str) : List Str := parseParametersGo s 0 0 []

/-- One pass of `re.sub(r'\bfinal\s+', '', parameter)`.  `prevWord` records
whether the previous character of the original string is a word character
(for the `\b` boundary). -/
def removeFinalKw : Nat → Bool → Str → Str
  | 0, _, s => s
  | _, _, [] => []
  | fuel + 1, prevWord, c :: rest =>
    if ¬ prevWord ∧ startsWith (lit "final") (c :: rest)
        ∧ (((c :: rest).drop 5).head?.elim false isSpc) then
      removeFinalKw fuel false (((c :: rest).drop 5).dropWhile isSpc)
    else
      c :: removeFinalKw fuel (isWordChar c) rest

/-- `_extract_type_from_parameter`: drop `final`, whitespace-split, and join
all but the last token with single spaces. -/
def extractTypeFromParameter (param : Str) : Option Str :=
  let parts := pySplitWs (removeFinalKw param.length false param)
  if parts.length < 2 then none
  else some (pyStrip (List.intercalate (lit " ") parts.dropLast))

/-- `extract_parameter_types`: normalise, find the parenthesised parameter
list, split it, and extract each parameter's type. -/
def extractParameterTypes (signature : Str) : List Str :=
  match parenContent (normalizeWs signature) with
  | none => []
  | some paramString =>
    if pyStrip paramString = [] then []
    else
      (parseParameters (pyStrip paramString)).filterMap extractTypeFromParameter

/-- Modifier literals of the return-type regex, in pattern order. -/
def modLits : List Str :=
  [lit "public", lit "private", lit "protected", lit "static",
   lit "final", lit "abstract", lit "synchronized"]

/-- Remainders (in backtracking priority order, greediest first) of matching
the star `(?:public|...|synchronized|\s)*` at the head of `s`. -/
def modStarRems : Nat → Str → List Str
  | 0, s => [s]
  | fuel + 1, s =>
    let step : List Str :=
      (modLits.filterMap fun l =>
        if startsWith l s then some (s.drop l.length) else none)
      ++ (match s with
          | c :: r => if isSpc c then [r] else []
          | [] => [])
    (step.flatMap fun r =>
      if r.length < s.length then modStarRems fuel r else []) ++ [s]

/-- Remainders (greediest first) of matching `\s*` at the head of `s`. -/
def wsStarRems (s : Str) : List Str :=
  let k := (s.takeWhile isSpc).length
  (List.range (k + 1)).reverse.map fun j => s.drop j

/-- The deterministic tail `\s+\w+\s*\(` of the return-type regex. -/
def retTailMatches (s : Str) : Bool :=
  let ws := s.takeWhile isSpc
  let r1 := s.dropWhile isSpc
  let w := r1.takeWhile isWordChar
  let r2 := r1.dropWhile isWordChar
  ws ≠ [] && w ≠ [] && (r2.dropWhile isSpc).head? = some '('

/-- Optional-brackets part: try consuming `k` copies of `[]` (greedy, then
fewer) followed by the tail; return the consumed bracket text. -/
def bracketsAndTail (g : Str) (s : Str) : Nat → Option Str
  | 0 => if retTailMatches s then some g else none
  | k + 1 =>
    (if retTailMatches (s.drop (2 * (k + 1))) then
      some (g ++ (List.replicate (k + 1) (lit "[]")).flatten)
    else none).orElse fun _ => bracketsAndTail g s k

/-- Count the maximal run of literal `[]` pairs at the head of `s`. -/
def squareRun : Nat → Str → Nat
  | 0, _ => 0
  | fuel + 1, s =>
    if startsWith (lit "[]") s then squareRun fuel (s.drop 2) + 1 else 0

/-- After the `\S+` prefix `g`, try the optional `(?:<[^>]*>)?` (greedy
first) and then `(\[\])*` and the tail; return the full captured group. -/
def angleOptAndTail (g : Str) (s : Str) : Option Str :=
  let withAngle : Option Str :=
    match s with
    | c :: t =>
      if c = '<' then
        let inner := t.takeWhile (fun d => ¬ d = '>')
        match t.drop inner.length with
        | d :: u =>
          if d = '>' then
            bracketsAndTail (g ++ '<' :: inner ++ [lit ">"].flatten) u
              (squareRun u.length u)
          else none
        | [] => none
      else none
    | [] => none
  (withAngle.orElse fun _ => bracketsAndTail g s (squareRun s.length s))

/-- Try the captured group `(\S+(?:<[^>]*>)?(?:\[\])*)` plus tail at `s`,
with `\S+` taking `j` characters (greedy descent handled by the caller). -/
def groupAt (s : Str) : Nat → Option Str
  | 0 => none
  | j + 1 =>
    (angleOptAndTail (s.take (j + 1)) (s.drop (j + 1))).orElse
      fun _ => groupAt s j

/-- Try the whole return-type pattern anchored at the head of `s`. -/
def retTryAt (s : Str) : Option Str :=
  (modStarRems s.length s).findSome? fun r1 =>
    (wsStarRems r1).findSome? fun r2 =>
      let m := (r2.takeWhile (fun d => ¬ isSpc d)).length
      groupAt r2 m

/-- Leftmost search for the return-type pattern
`(?:public|...|\s)*\s*(\S+(?:<[^>]*>)?(?:\[\])*)\s+\w+\s*\(`. -/
def retSearch : Str → Option Str
  | [] => none
  | c :: rest => (retTryAt (c :: rest)).orElse fun _ => retSearch rest

/-- `extract_return_type`: normalise and search for the pattern. -/
def extractReturnType (signature : Str) : Option Str :=
  retSearch (normalizeWs signature)

/-- Remove every literal `[]`: `re.sub(r'\[\]', '', s)`. -/
def removeSquares : Str → Str
  | [] => []
  | '[' :: ']' :: rest => removeSquares rest
  | c :: rest => c :: removeSquares rest

/-- `re.sub(r'<.*>', '', s)` (greedy, single effective match): drop from the
first `<` through the last following `>`, if such a pair exists. -/
def removeAngleGreedy (s : Str) : Str :=
  let a := s.takeWhile (fun d => ¬ d = '<')
  let b := s.dropWhile (fun d => ¬ d = '<')
  match b with
  | [] => s
  | _ :: t =>
    if t.contains '>' then
      a ++ (t.reverse.takeWhile (fun d => ¬ d = '>')).reverse
    else s

/-- `re.sub(r'\?\s*(?:extends|super)\s+', '', s)`. -/
def removeWildcardBound : Nat → Str → Str
  | 0, s => s
  | _, [] => []
  | fuel + 1, c :: rest =>
    if c = '?' then
      let r1 := rest.dropWhile isSpc
      let kw :=
        if startsWith (lit "extends") r1 then some 7
        else if startsWith (lit "super") r1 then some 5 else none
      match kw with
      | some k =>
        let r2 := r1.drop k
        if r2.head?.elim false isSpc then
          removeWildcardBound fuel (r2.dropWhile isSpc)
        else c :: removeWildcardBound fuel rest
      | none => c :: removeWildcardBound fuel rest
    else c :: removeWildcardBound fuel rest

/-- Python `s.split('.')[-1]` guarded by `'.' in s`. -/
def lastDotSegment (s : Str) : Str :=
  if s.contains '.' then (s.reverse.takeWhile (fun d => ¬ d = '.')).reverse
  else s

/-- `_clean_type_name`: strip array markers, generic arguments, wildcard
bounds, bare `?`, package prefixes, and surrounding whitespace. -/
def cleanTypeName (t : Str) : Str :=
  if t = [] then []
  else
    let u := removeAngleGreedy (removeSquares t)
    pyStrip (lastDotSegment
      ((removeWildcardBound u.length u).filter (fun d => ¬ d = '?')))

/-- Leftmost match of `re.search(r'<([^>]+)>', s)`: the first `<` whose next
`>` is not adjacent, capturing the text between. -/
def findAngleGroup : Str → Option Str
  | [] => none
  | c :: rest =>
    if c = '<' then
      let grp := rest.takeWhile (fun d => ¬ d = '>')
      match rest.drop grp.length with
      | d :: _ => if d = '>' ∧ grp ≠ [] then some grp else findAngleGroup rest
      | [] => findAngleGroup rest
    else findAngleGroup rest

/-- `_parse_generic_parameters`: comma-split at zero angle depth. -/
def parseGenericParamsGo : Str → Int → Str → List Str
  | [], _, cur =>
    if pyStrip cur.reverse ≠ [] then [pyStrip cur.reverse] else []
  | c :: rest, ang, cur =>
    if c = '<' then parseGenericParamsGo rest (ang + 1) (c :: cur)
    else if c = '>' then parseGenericParamsGo rest (ang - 1) (c :: cur)
    else if c = ',' ∧ ang = 0 then
      (if pyStrip cur.reverse ≠ [] then [pyStrip cur.reverse] else [])
        ++ parseGenericParamsGo rest ang []
    else parseGenericParamsGo rest ang (c :: cur)

/-- `_parse_generic_parameters` entry point. -/
def parseGenericParams (s : Str) : List Str := parseGenericParamsGo s 0 []

/-- `_extract_nested_types`: pull the (first-`>`-truncated) generic argument
list out of a type name and recurse into each argument. -/
def extractNestedTypes : Nat → Str → List Str
  | 0, _ => []
  | fuel + 1, t =>
    match findAngleGroup t with
    | none => []
    | some grp =>
      (parseGenericParams grp).flatMap fun p =>
        let cp := cleanTypeName p
        if cp ≠ [] then cp :: extractNestedTypes fuel p else []

/-- The fixed primitive-type exclusion set of `extract_all_types_from_signature`. -/
def primitiveTypes : List Str :=
  [lit "int", lit "long", lit "double", lit "float", lit "boolean",
   lit "char", lit "byte", lit "short", lit "void"]

/-- The final dedup-and-filter loop of `extract_all_types_from_signature`. -/
def dedupFilter : List Str → List Str → List Str
  | [], _ => []
  | t :: rest, seen =>
    let ct := cleanTypeName t
    if ct ≠ [] ∧ ct ∉ seen ∧ ct ∉ primitiveTypes then
      ct :: dedupFilter rest (ct :: seen)
    else dedupFilter rest seen

/-- `extract_all_types_from_signature`: return type (unless `void`), then
parameter types, then nested generic types, deduplicated with primitives
removed. -/
def extractAllTypesFromSignature (signature : Str) : List Str :=
  let types :=
    (match extractReturnType signature with
     | some r => if r ≠ lit "void" then [r] else []
     | none => []) ++ extractParameterTypes signature
  let nested := types.flatMap fun t => extractNestedTypes t.length t
  dedupFilter (types ++ nested) []

end JavaSignatureParser


namespace TypeResolver

/-- Embedding of `rag/type_resolver.py`'s `ClassInfo` dataclass. -/
structure ClassInfo where
  name : Str
  pkg : Str
  fullQualifiedName : Str
  filePath : Str
  isRecord : Bool := false
  isInterface : Bool := false
  isEnum : Bool := false
deriving DecidableEq, Repr

/-- The mutable maps of `ProjectTypeResolver`, as insertion-ordered
association lists (Python dicts preserve insertion order). -/
structure TypeIndex where
  typeMapping : List (Str × ClassInfo)
  packageMapping : List (Str × List Str)
  ambiguousTypes : List (Str × List ClassInfo)
deriving DecidableEq, Repr

/-- The empty index built by `__init__` before any file is scanned. -/
def TypeIndex.empty : TypeIndex := ⟨[], [], []⟩

/-- Association-list lookup standing in for Python dict indexing. -/
def alistGet (l : List (Str × α)) (k : Str) : Option α :=
  (l.find? fun p => p.1 = k).map Prod.snd

/-- Association-list update standing in for Python dict assignment. -/
def alistSet (l : List (Str × α)) (k : Str) (v : α) : List (Str × α) :=
  if (l.find? fun p => p.1 = k).isSome then
    l.map fun p => if p.1 = k then (k, v) else p
  else l ++ [(k, v)]

/-- `_add_class_to_mapping`: record a parsed class, tracking same-name
collisions in `ambiguous_types` and updating the package map.  The
package map's value sets are modelled as first-insertion-ordered
duplicate-free lists. -/
def addClassToMapping (idx : TypeIndex) (info : ClassInfo) : TypeIndex :=
  let idx1 :=
    match alistGet idx.typeMapping info.name with
    | some existing =>
      let cands :=
        match alistGet idx.ambiguousTypes info.name with
        | some cs => cs
        | none => [existing]
      { idx with ambiguousTypes :=
          alistSet idx.ambiguousTypes info.name (cands ++ [info]) }
    | none =>
      { idx with typeMapping := idx.typeMapping ++ [(info.name, info)] }
  let names := (alistGet idx1.packageMapping info.pkg).getD []
  let names1 := if info.name ∈ names then names else names ++ [info.name]
  { idx1 with packageMapping := alistSet idx1.packageMapping info.pkg names1 }

/-- `_calculate_package_similarity`: length of the common dot-separated
prefix of two package names (0 if either is empty). -/
def calculatePackageSimilarity (package1 package2 : Str) : Nat :=
  if package1 = [] ∨ package2 = [] then 0
  else
    let rec go : List Str → List Str → Nat
      | a :: as1, b :: bs => if a = b then go as1 bs + 1 else 0
      | _, _ => 0
    go (splitOnDot package1) (splitOnDot package2)
where
  /-- Python `package.split('.')` (keeps empty segments). -/
  splitOnDot (s : Str) : List Str :=
    let rec sp : Str → Str → List Str
      | [], cur => [cur.reverse]
      | c :: rest, cur =>
        if c = '.' then cur.reverse :: sp rest [] else sp rest (c :: cur)
    sp s []

/-- The best-candidate scan of `resolve_type`: keep the first candidate
whose similarity strictly exceeds the running maximum (initially 0). -/
def bestBySimilarity (ctx : Str) : List ClassInfo → Nat → Option ClassInfo → Option ClassInfo
  | [], _, best => best
  | c :: cs, maxSim, best =>
    let sim := calculatePackageSimilarity ctx c.pkg
    if sim > maxSim then bestBySimilarity ctx cs sim (some c)
    else bestBySimilarity ctx cs maxSim best

/-- `resolve_type`: unambiguous names resolve directly; ambiguous names are
resolved by exact package match, then by first-best package similarity,
then by first-discovered candidate.  `context_package` values `None` and
`""` are both falsy in Python and are modelled by `none` / `some []`. -/
def resolveType (idx : TypeIndex) (simpleClassName : Str)
    (contextPackage : Option Str := none) : Option ClassInfo :=
  match alistGet idx.typeMapping simpleClassName with
  | none => none
  | some direct =>
    match alistGet idx.ambiguousTypes simpleClassName with
    | none => some direct
    | some candidates =>
      let withCtx : Option ClassInfo :=
        match contextPackage with
        | some ctx =>
          if ctx ≠ [] then
            match candidates.find? fun c => c.pkg = ctx with
            | some exact => some exact
            | none => bestBySimilarity ctx candidates 0 none
          else none
        | none => none
      match withCtx with
      | some c => some c
      | none => candidates.head?

/-- Disambiguation rule as the specification states it: an exact package
match wins, else the candidate sharing the longest dot-separated prefix
with the context package wins, else the first-discovered candidate.  Used
only to compare `resolveType` against the spec's words. -/
def resolveDisambiguationSpec (candidates : List ClassInfo)
    (contextPackage : Option Str) : Option ClassInfo :=
  match contextPackage with
  | some ctx =>
    if ctx ≠ [] then
      match candidates.find? fun c => c.pkg = ctx with
      | some exact => some exact
      | none =>
        let best := (candidates.map fun c => calculatePackageSimilarity ctx c.pkg).foldr max 0
        if best > 0 then
          candidates.find? fun c => calculatePackageSimilarity ctx c.pkg = best
        else candidates.head?
    else candidates.head?
  | none => candidates.head?

end TypeResolver

namespace Sanitizer

/-- Suffix after the first occurrence of `pat`, scanning left to right. -/
def dropThroughPat (pat : Str) : Str → Option Str
  | [] => none
  | c :: rest =>
    if startsWith pat (c :: rest) then some ((c :: rest).drop pat.length)
    else dropThroughPat pat rest

/-- `re.sub(r'<think>.*?</think>', '', s, flags=re.DOTALL)`: delete each
leftmost `<think>` paired lazily with the next `</think>`. -/
def removeThink : Nat → Str → Str
  | 0, s => s
  | _, [] => []
  | fuel + 1, c :: rest =>
    if startsWith (lit "<think>") (c :: rest) then
      match dropThroughPat (lit "</think>") ((c :: rest).drop 7) with
      | some after => removeThink fuel after
      | none => c :: removeThink fuel rest
    else c :: removeThink fuel rest

/-- Scanner state machine for `re.sub(r'<[^>]+>', '', s)`: `none` is normal
scanning; `some buf` holds the (reversed) non-`>` characters buffered since
an as-yet-unmatched `<`. -/
def removeAngleSpansGo : Option Str → Str → Str
  | none, [] => []
  | some buf, [] => '<' :: buf.reverse
  | none, c :: rest =>
    if c = '<' then removeAngleSpansGo (some []) rest
    else c :: removeAngleSpansGo none rest
  | some buf, c :: rest =>
    if c = '>' then
      if buf = [] then '<' :: '>' :: removeAngleSpansGo none rest
      else removeAngleSpansGo none rest
    else removeAngleSpansGo (some (c :: buf)) rest

/-- `re.sub(r'<[^>]+>', '', s)`: delete every span of one or more non-`>`
characters enclosed in angle brackets. -/
def removeAngleSpans (s : Str) : Str := removeAngleSpansGo none s

/-- `re.sub(r'```java\s*', '', s)`. -/
def removeFenceJava : Nat → Str → Str
  | 0, s => s
  | _, [] => []
  | fuel + 1, c :: rest =>
    if startsWith (lit "```java") (c :: rest) then
      removeFenceJava fuel (((c :: rest).drop 7).dropWhile isSpc)
    else c :: removeFenceJava fuel rest

/-- `re.sub(r'```\s*$', '', s)`: the pattern only matches a final run
`` ``` `` followed by nothing but whitespace, and the substitution drops
everything from the first such position. -/
def removeTrailingFence : Str → Str
  | [] => []
  | c :: rest =>
    if startsWith (lit "```") (c :: rest) ∧ ((c :: rest).drop 3).all isSpc then []
    else c :: removeTrailingFence rest

/-- Anchored test for `package\s+[\w.]+\s*;`. -/
def pkgMatchAt (s : Str) : Bool :=
  startsWith (lit "package") s &&
    (let r1 := s.drop 7
     let r2 := r1.dropWhile isSpc
     let isPkgChar : Char → Bool := fun d => isWordChar d || d = '.'
     (r1.takeWhile isSpc) ≠ [] && (r2.takeWhile isPkgChar) ≠ [] &&
       ((r2.dropWhile isPkgChar).dropWhile isSpc).head? = some ';')

/-- `re.search(r'package\s+[\w.]+\s*;', s)` reduced to the data the code
uses: the suffix of `s` from the leftmost match start. -/
def packageSuffix : Str → Option Str
  | [] => none
  | c :: rest =>
    if pkgMatchAt (c :: rest) then some (c :: rest) else packageSuffix rest

/-- Anchored test for `public\s+class\s+\w+` returning the remainder after
the maximal class-name run. -/
def pubClassHeadAt (s : Str) : Option Str :=
  if startsWith (lit "public") s then
    let r1 := s.drop 6
    if r1.takeWhile isSpc = [] then none
    else
      let r2 := r1.dropWhile isSpc
      if startsWith (lit "class") r2 then
        let r3 := r2.drop 5
        if r3.takeWhile isSpc = [] then none
        else
          let r4 := r3.dropWhile isSpc
          if r4.takeWhile isWordChar = [] then none
          else some (r4.dropWhile isWordChar)
      else none
  else none

/-- After a class head, `.*?\{.*\}` (DOTALL) matches iff some `{` is
followed by a later `}`. -/
def tailHasBraces (rem : Str) : Bool :=
  match rem.dropWhile (fun d => ¬ d = lbrace) with
  | [] => false
  | _ :: t => t.contains rbrace

/-- Whether `re.finditer(r'public\s+class\s+\w+.*?\{.*\}', s, re.DOTALL)`
finds any match. -/
def existsClassMatch : Str → Bool
  | [] => false
  | c :: rest =>
    (match pubClassHeadAt (c :: rest) with
     | some rem => tailHasBraces rem
     | none => false) || existsClassMatch rest

/-- The prefix of `s` ending at its last `}`: because the class pattern's
final `.*\}` is greedy over the whole (DOTALL) text, the last match of the
`finditer` above always ends just after the last `}` of `s`. -/
def truncAfterLastRbrace (s : Str) : Str :=
  (s.reverse.dropWhile (fun d => ¬ d = rbrace)).reverse

/-- Python `line.rstrip()`. -/
def rstrip (s : Str) : Str := (s.reverse.dropWhile isSpc).reverse

/-- Python `'\n'.join(lines)`. -/
def joinNl : List Str → Str
  | [] => []
  | [l] => l
  | l :: l2 :: rest => l ++ '\n' :: joinNl (l2 :: rest)

/-- Python `code.split('\n')` (keeps empty lines). -/
def splitLinesGo : Str → Str → List Str
  | [], cur => [cur.reverse]
  | c :: rest, cur =>
    if c = '\n' then cur.reverse :: splitLinesGo rest []
    else splitLinesGo rest (c :: cur)

/-- Python `code.split('\n')`. -/
def splitLines (s : Str) : List Str := splitLinesGo s []

/-- The brace/string/escape scanner state of `_fix_incomplete_java_code`;
Python keeps all three variables across lines. -/
structure JState where
  braceCount : Int
  inString : Bool
  escapeNext : Bool
deriving DecidableEq, Repr

/-- Per-character scan of one line, in the order the Python loop tests:
escape consumption, backslash, quote toggle, then brace counting outside
strings. -/
def scanLine : JState → Str → JState
  | st, [] => st
  | st, c :: rest =>
    if st.escapeNext then scanLine { st with escapeNext := false } rest
    else if c = '\\' then scanLine { st with escapeNext := true } rest
    else
      let st1 := if c = '"' ∧ ¬ st.escapeNext then
                   { st with inString := ¬ st.inString }
                 else st
      let st2 :=
        if ¬ st1.inString then
          if c = lbrace then { st1 with braceCount := st1.braceCount + 1 }
          else if c = rbrace then { st1 with braceCount := st1.braceCount - 1 }
          else st1
        else st1
      scanLine st2 rest

/-- The line loop of `_fix_incomplete_java_code`: scan each line; if the
string state is still open and the stripped line does not already end in a
quote, close it with an appended `"` and reset the string state. -/
def processLines : JState → List Str → List Str × Int
  | st, [] => ([], st.braceCount)
  | st, line :: rest =>
    let st1 := scanLine st line
    if st1.inString ∧ ¬ ((rstrip line).getLast? = some '"') then
      let (ls, bc) := processLines { st1 with inString := false } rest
      ((rstrip line ++ ['"']) :: ls, bc)
    else
      let (ls, bc) := processLines st1 rest
      (line :: ls, bc)

/-- `_fix_incomplete_java_code`: balance quotes per line and append the
missing closing braces, rejoining with newlines. -/
def fixIncompleteJavaCode (code : Str) : Str :=
  let (ls, bc) := processLines ⟨0, false, false⟩ (splitLines code)
  joinNl (ls ++ List.replicate bc.toNat [rbrace])

/-- `_clean_llm_response`: the response sanitizer pipeline. -/
def cleanLlmResponse (response : Str) : Str :=
  let r1 := removeThink response.length response
  let r2 := removeAngleSpans r1
  let r3 := removeFenceJava r2.length r2
  let r4 := removeTrailingFence r3
  let r5 := match packageSuffix r4 with
            | some suffixFromPkg => suffixFromPkg
            | none => r4
  let r6 := if existsClassMatch r5 then truncAfterLastRbrace r5
            else fixIncompleteJavaCode r5
  pyStrip r6

/-- An angle-bracket span `<[^>]+>`: the property the sanitizer's second
pass eliminates. -/
def HasSpan (s : Str) : Prop :=
  ∃ l m r, s = l ++ '<' :: (m ++ '>' :: r) ∧ m ≠ [] ∧ '>' ∉ m

/-- The text a pending scanner state of `removeAngleSpansGo` stands for: the
unmatched `<` and its buffered characters. -/
def pendingOf : Option Str → Str
  | none => []
  | some buf => '<' :: buf.reverse

end Sanitizer


namespace FixLoop

/-- Error class of a fix attempt (spec data model `FixAttempt`). -/
inductive ErrClass where
  | compile
  | runtime
deriving DecidableEq, Repr

/-- A fix-attempt record: one `stats['fix_attempts']` increment, made just
before the corresponding fix request is sent to the model. -/
structure FixAttempt where
  errClass : ErrClass
  diagnostic : String
deriving DecidableEq, Repr

/-- Result dictionary of one fix phase.  `code` is `none` exactly when the
Python dict carries no `'code'` key (the failure returns). -/
structure PhaseResult where
  success : Bool
  code : Option String
  attempts : Nat
  error : Option String
  lastError : Option String
  records : List FixAttempt
deriving DecidableEq, Repr

/-- The `while attempt < max_attempts` loop of `_compile_fix_phase`.  The
fuel is `max_attempts - attempt`; `compileTest` is the compilation manager
and `fixCompile` the sanitized LLM compile-fix request (returning `none`
for an invalid/empty response). -/
def compileFixGo (compileTest : String → Bool × String)
    (fixCompile : String → String → Option String) :
    Nat → String → Nat → List FixAttempt → Option String → PhaseResult
  | 0, _, attempt, recs, lastErr =>
    ⟨false, none, attempt, some "compile fix attempts exhausted", lastErr, recs⟩
  | fuel + 1, code, attempt, recs, _ =>
    let (ok, err) := compileTest code
    if ok then ⟨true, some code, attempt + 1, none, none, recs⟩
    else
      let recs1 := recs ++ [⟨ErrClass.compile, err⟩]
      match fixCompile code err with
      | none =>
        ⟨false, none, attempt + 1, some "compile fix attempts exhausted", some err, recs1⟩
      | some fixedCode => compileFixGo compileTest fixCompile fuel fixedCode (attempt + 1) recs1 (some err)

/-- `_compile_fix_phase`. -/
def compileFixPhase (compileTest : String → Bool × String)
    (fixCompile : String → String → Option String)
    (maxAttempts : Nat) (initialCode : String) : PhaseResult :=
  compileFixGo compileTest fixCompile maxAttempts initialCode 0 [] none

/-- The `while attempt < max_attempts` loop of `_runtime_fix_phase`: a
pre-run compile check with an inline (unrecorded) compile fix, then the
run/fix cycle; runtime failures append `runtime` fix-attempt records. -/
def runtimeFixGo (compileTest : String → Bool × String)
    (fixCompile fixRuntime : String → String → Option String)
    (runTest : String → Bool × String) :
    Nat → String → Nat → List FixAttempt → Option String → PhaseResult
  | 0, _, attempt, recs, lastRunErr =>
    ⟨false, none, attempt, some "runtime fix attempts exhausted", lastRunErr, recs⟩
  | fuel + 1, code, attempt, recs, lastRunErr =>
    let (cok, cerr) := compileTest code
    if ¬ cok then
      match fixCompile code cerr with
      | none =>
        ⟨false, none, attempt + 1, some ("pre-run compile failed and unfixable: " ++ cerr),
          lastRunErr, recs⟩
      | some fixedCode =>
        runtimeFixGo compileTest fixCompile fixRuntime runTest fuel fixedCode (attempt + 1)
          recs lastRunErr
    else
      let (rok, rerr) := runTest code
      if rok then ⟨true, some code, attempt + 1, none, none, recs⟩
      else
        let recs1 := recs ++ [⟨ErrClass.runtime, rerr⟩]
        match fixRuntime code rerr with
        | none =>
          ⟨false, none, attempt + 1, some "runtime fix attempts exhausted", some rerr, recs1⟩
        | some fixedCode =>
          runtimeFixGo compileTest fixCompile fixRuntime runTest fuel fixedCode (attempt + 1)
            recs1 (some rerr)

/-- `_runtime_fix_phase`. -/
def runtimeFixPhase (compileTest : String → Bool × String)
    (fixCompile fixRuntime : String → String → Option String)
    (runTest : String → Bool × String)
    (maxAttempts : Nat) (initialCode : String) : PhaseResult :=
  runtimeFixGo compileTest fixCompile fixRuntime runTest maxAttempts initialCode 0 [] none

/-- Result of `_compile_and_fix_loop_with_progress`, with the concatenated
fix-attempt log of both phases. -/
structure LoopResult where
  success : Bool
  code : Option String
  attempts : Nat
  error : Option String
  phases : List String
  records : List FixAttempt
deriving DecidableEq, Repr

/-- `_compile_and_fix_loop_with_progress`: phase 1 (compile fix) for the
`compile-only`/`both` strategies, then phase 2 (runtime fix, with a
runtime-only compile pre-pass) on the remaining attempt budget
`max_attempts - attempt`.  On a failed compile phase the current code
reverts to `initial_test` because the failure dict has no `'code'` key. -/
def compileAndFixLoop (compileTest : String → Bool × String)
    (fixCompile fixRuntime : String → String → Option String)
    (runTest : String → Bool × String)
    (initialTest : String) (maxAttempts : Nat) (fixStrategy : String) : LoopResult :=
  let phase1 : Option PhaseResult :=
    if fixStrategy = "compile-only" ∨ fixStrategy = "both" then
      some (compileFixPhase compileTest fixCompile maxAttempts initialTest)
    else none
  match phase1 with
  | some cr =>
    if ¬ cr.success ∧ fixStrategy = "compile-only" then
      ⟨cr.success, cr.code, cr.attempts, cr.error, [], cr.records⟩
    else
      let currentCode := cr.code.getD initialTest
      let attempt := cr.attempts
      if fixStrategy = "runtime-only" ∨ fixStrategy = "both" then
        let rr := runtimeFixPhase compileTest fixCompile fixRuntime runTest
          (maxAttempts - attempt) currentCode
        let phases := if fixStrategy = "both" then ["compile", "runtime"] else ["runtime"]
        if rr.success then
          ⟨true, rr.code, attempt + rr.attempts, none, phases, cr.records ++ rr.records⟩
        else
          ⟨false, none, attempt + rr.attempts, rr.error, phases, cr.records ++ rr.records⟩
      else
        if fixStrategy = "compile-only" then
          ⟨cr.success, cr.code, cr.attempts, cr.error, [], cr.records⟩
        else
          ⟨false, none, attempt, some ("fix strategy failed: " ++ fixStrategy), [], cr.records⟩
  | none =>
    if fixStrategy = "runtime-only" then
      let (cok, _) := compileTest initialTest
      let (currentCode, attempt, recs) :=
        if ¬ cok then
          let cr2 := compileFixPhase compileTest fixCompile maxAttempts initialTest
          if cr2.success then (cr2.code.getD initialTest, cr2.attempts, cr2.records)
          else (initialTest, cr2.attempts, cr2.records)
        else (initialTest, 0, [])
      let rr := runtimeFixPhase compileTest fixCompile fixRuntime runTest
        (maxAttempts - attempt) currentCode
      if rr.success then
        ⟨true, rr.code, attempt + rr.attempts, none, ["runtime"], recs ++ rr.records⟩
      else
        ⟨false, none, attempt + rr.attempts, rr.error, ["runtime"], recs ++ rr.records⟩
    else
      ⟨false, none, 0, some ("fix strategy failed: " ++ fixStrategy), [], []⟩

end FixLoop

namespace Retrieval

open TypeResolver

/-- The metadata fields of a stored/injected context item that the
retrieval pipeline reads or writes. -/
structure Meta where
  mtype : Option Str := none
  className : Option Str := none
  pkg : Option Str := none
  language : Option Str := none
  isRecord : Option Bool := none
  isComponent : Option Bool := none
  isExternal : Option Bool := none
deriving DecidableEq, Repr

/-- One result dict `{content, metadata, distance, id, query}`.  Distances
are the code's floats scaled by 100 into integers. -/
structure RawResult where
  content : Str
  metadata : Meta
  distance : Option Int
  id : Option Str
  query : Option Str := none
deriving DecidableEq, Repr

/-- The reply shape of the ChromaDB collaborator `collection.query`:
parallel outer-nested lists, any of which may be `None`. -/
structure ChromaReply where
  documents : List (List Str)
  metadatas : Option (List (List Meta))
  distances : Option (List (List Int))
  ids : Option (List (List Str))

/-- The `where` clause built by `search_similar_code`: absent for an empty
filter, a single `$eq` condition, or an `$and` of `$eq` conditions. -/
inductive WhereClause where
  | empty
  | single (key value : Str)
  | conj (conds : List (Str × Str))
deriving DecidableEq, Repr

/-- Filter-to-`where` marshalling of `search_similar_code`. -/
def buildWhere (filterMetadata : List (Str × Str)) : WhereClause :=
  match filterMetadata with
  | [] => WhereClause.empty
  | [(k, v)] => WhereClause.single k v
  | l => WhereClause.conj l

/-- Python truthiness of an optional list (`None` and `[]` are falsy). -/
def optListTruthy : Option (List α) → Bool
  | some (_ :: _) => true
  | _ => false

/-- The result-formatting loop of `search_similar_code`: index `[0][i]` of
each parallel list, defaulting metadata to `{}`, distance to `0.0` and id
to `None` when the corresponding outer list is falsy; an out-of-range
index raises `IndexError`, modelled by `none`. -/
def formatHits (reply : ChromaReply) (docs0 : List Str) : Option (List RawResult) :=
  (List.range docs0.length).mapM fun i => do
    let content ← docs0.get? i
    let md ←
      match reply.metadatas with
      | some (m0 :: _) => m0.get? i
      | _ => some {}
    let dist ←
      match reply.distances with
      | some (d0 :: _) => d0.get? i
      | _ => some 0
    let rid ←
      match reply.ids with
      | some (i0 :: _) => (i0.get? i).map some
      | _ => some none
    pure ⟨content, md, some dist, rid, none⟩

/-- `search_similar_code`: build the query parameters, call the store, and
format; every raised exception (store failure or index error) is caught
and yields `[]`. -/
def searchSimilarCode (collab : Str → Nat → WhereClause → Except Str ChromaReply)
    (query : Str) (topK : Nat) (filterMetadata : List (Str × Str)) : List RawResult :=
  match collab query topK (buildWhere filterMetadata) with
  | Except.error _ => []
  | Except.ok reply =>
    match reply.documents with
    | [] => []
    | docs0 :: _ =>
      if docs0 = [] then []
      else
        match formatHits reply docs0 with
        | some out => out
        | none => []

/-- The dict produced by `_parse_method_signature`. -/
structure MethodInfo where
  methodName : Str
  className : Option Str
  pkg : Str
deriving DecidableEq, Repr

/-- Python truthiness of an optional string. -/
def optTruthy : Option Str → Bool
  | some s => s ≠ []
  | none => false

/-- Python `str(None)` / f-string rendering of a possibly-`None` name. -/
def pyShow : Option Str → Str
  | some s => s
  | none => lit "None"

/-- Split a list at the first occurrence of a separator character
(`str.split(sep, 1)`). -/
def splitOnce (sep : Char) : Str → Option (Str × Str)
  | [] => none
  | c :: rest =>
    if c = sep then some ([], rest)
    else (splitOnce sep rest).map fun p => (c :: p.1, p.2)

/-- Python `s.split(sep)` for a single-character separator (keeps empties). -/
def splitAll (sep : Char) : Str → List Str
  | s =>
    let rec go : Str → Str → List Str
      | [], cur => [cur.reverse]
      | c :: rest, cur =>
        if c = sep then cur.reverse :: go rest [] else go rest (c :: cur)
    go s []

/-- `_parse_method_signature`: `package.ClassName#methodName` or a bare
method name. -/
def parseMethodSignature (signature : Str) : MethodInfo :=
  match splitOnce '#' signature with
  | some (classPart, methodName) =>
    let packageParts := splitAll '.' classPart
    let className := packageParts.getLast? 
    let pkg :=
      if packageParts.length > 1 then
        List.intercalate (lit ".") packageParts.dropLast
      else []
    ⟨methodName, className, pkg⟩
  | none => ⟨signature, none, []⟩

/-- Query list of `_build_queries_for_type` as assembled up to the point
where the method reads the attribute `self.external_library_mapper`. -/
def queriesForTypePrefix (idx : TypeIndex) (typeName : Str) : List Str :=
  [typeName,
   lit "class " ++ typeName, lit "public class " ++ typeName,
   lit "record " ++ typeName, lit "public record " ++ typeName,
   lit "interface " ++ typeName, lit "enum " ++ typeName,
   lit "constructor " ++ typeName,
   lit "public " ++ typeName ++ lit "(", typeName ++ lit "(",
   lit "new " ++ typeName ++ lit "(",
   lit "@RequiredArgsConstructor", lit "@Component", lit "@Service",
   lit "@Repository", lit "@Controller"]
  ++ (match resolveType idx typeName with
      | some ci =>
        [ci.fullQualifiedName, lit "package " ++ ci.pkg]
        ++ (if ci.isRecord then
              [lit "record " ++ typeName, typeName ++ lit " record", lit "getIdentifier"]
            else [])
      | none => [])
  ++ [lit "import.*" ++ typeName, lit "package.*" ++ typeName,
      typeName ++ lit ".java",
      lit "class.*" ++ typeName ++ lit ".*\\" ++ [lbrace],
      lit "public.*" ++ typeName ++ lit ".*\\" ++ [lbrace]]

/-- `_build_queries_for_type` always raises: `SmartProjectAnalyzer` never
assigns `self.external_library_mapper` (only a module-level global of that
name exists), so the guard `if self.external_library_mapper:` raises
`AttributeError` after the queries above have been assembled locally. -/
def buildQueriesForTypeE (idx : TypeIndex) (typeName : Str) : Except Unit (List Str) :=
  let _assembled := queriesForTypePrefix idx typeName
  Except.error ()

/-- First-occurrence deduplication, Python `list(dict.fromkeys(xs))`. -/
def dedupKeepFirst (l : List Str) : List Str :=
  (l.foldl (fun acc q => if q ∈ acc then acc else acc ++ [q]) [])

/-- The accumulation loop of `_build_parameter_type_queries`, propagating
the collaborator-free `AttributeError`. -/
def paramTypeQueriesGo (idx : TypeIndex) : List Str → List Str → Except Unit (List Str)
  | [], acc => Except.ok acc
  | t :: ts, acc =>
    match buildQueriesForTypeE idx t with
    | Except.ok qs => paramTypeQueriesGo idx ts (acc ++ qs)
    | Except.error e => Except.error e

/-- `_build_parameter_type_queries`: extract all signature types and expand
each; the expansion raises `AttributeError` on the first type, which the
enclosing `try` converts to `[]` (and an empty type list also yields `[]`). -/
def buildParameterTypeQueries (idx : TypeIndex) (methodSignature : Str) : List Str :=
  let allTypes := JavaSignatureParser.extractAllTypesFromSignature methodSignature
  match paramTypeQueriesGo idx allTypes [] with
  | Except.ok qs => dedupKeepFirst qs
  | Except.error _ => []

/-- Anchored match of `import\s+com\.example\.pdfcompare\.(\w+)\.(\w+);`,
returning both groups and the suffix after the match. -/
def importLocalAt (s : Str) : Option (Str × Str × Str) :=
  if startsWith (lit "import") s then
    let r1 := s.drop 6
    if r1.takeWhile isSpc = [] then none
    else
      let r2 := r1.dropWhile isSpc
      if startsWith (lit "com.example.pdfcompare.") r2 then
        let r3 := r2.drop 23
        let pp := r3.takeWhile isWordChar
        if pp = [] then none
        else
          match r3.dropWhile isWordChar with
          | '.' :: r4 =>
            let ic := r4.takeWhile isWordChar
            if ic = [] then none
            else
              match r4.dropWhile isWordChar with
              | ';' :: after => some (pp, ic, after)
              | _ => none
          | _ => none
      else none
  else none

/-- `re.findall` over the import pattern (non-overlapping, left to right). -/
def findallImportLocal : Nat → Str → List (Str × Str)
  | 0, _ => []
  | _, [] => []
  | fuel + 1, c :: rest =>
    match importLocalAt (c :: rest) with
    | some (pp, ic, after) => (pp, ic) :: findallImportLocal fuel after
    | none => findallImportLocal fuel rest

/-- The file-reading collaborators of the analyzer: `readFile` combines
`os.path.exists` with `open().read()`, and `analyzeClass` is the
`SmartCodeAnalyzer` static-parser collaborator. -/
structure FileCollab where
  readFile : Str → Option Str
  analyzeClass : Str → Option AnalyzedClass
deriving Inhabited

/-- The `ClassInfo` dataclass of `rag/code_analyzer.py` (fields the
retriever reads). -/
structure AnalyzedConstructor where
  parameters : List (Str × Str)
  isDefault : Bool
  isPublic : Bool
  annotations : List Str
deriving DecidableEq, Repr

/-- The analyzed-class dataclass of `rag/code_analyzer.py`. -/
structure AnalyzedClass where
  name : Str
  pkg : Str
  isRecord : Bool
  isComponent : Bool
  annotations : List Str
  constructors : List AnalyzedConstructor
  dependencies : List Str
  imports : List Str
deriving DecidableEq, Repr

/-- `os.path.join(self.project_path, class_info.file_path)`. -/
def pathJoin (a b : Str) : Str := a ++ '/' :: b

/-- `_build_imported_class_queries`. -/
def buildImportedClassQueries (fc : FileCollab) (idx : TypeIndex)
    (projectPath : Str) (className : Option Str) : List Str :=
  if ¬ optTruthy className then []
  else
    match resolveType idx (pyShow className) with
    | none => []
    | some ci =>
      match fc.readFile (pathJoin projectPath ci.filePath) with
      | none => []
      | some content =>
        (findallImportLocal content.length content).flatMap fun pi =>
          let pp := pi.1
          let ic := pi.2
          [ic, lit "class " ++ ic, lit "public class " ++ ic,
           lit "record " ++ ic, lit "public record " ++ ic,
           lit "com.example.pdfcompare." ++ pp ++ lit "." ++ ic]

/-- `_build_class_definition_queries` (no `None` guard: an absent class
name is rendered as the literal `None` by the f-strings). -/
def buildClassDefinitionQueries (className : Option Str) : List Str :=
  let cn := pyShow className
  [lit "record " ++ cn, lit "class " ++ cn, lit "public class " ++ cn,
   lit "@Component class " ++ cn, lit "@Service class " ++ cn,
   lit "@Repository class " ++ cn, lit "@Controller class " ++ cn,
   lit "@RequiredArgsConstructor", lit "@AllArgsConstructor",
   lit "@NoArgsConstructor", lit "constructor " ++ cn,
   lit "public " ++ cn ++ lit "(", cn ++ lit "(",
   lit "@Autowired", lit "@Inject", lit "private final",
   lit "private " ++ cn]

/-- Python `str.lower()` (ASCII). -/
def pyLower (s : Str) : Str := s.map Char.toLower

/-- The method-name pattern queries of `find_relevant_context`
(lines 178-189). -/
def methodNamePatternQueries (methodName : Str) : List Str :=
  if methodName ≠ [] then
    [lit "highlight " ++ methodName, lit "process " ++ methodName,
     lit "handle " ++ methodName]
    ++ (if containsSub (lit "compare") (pyLower methodName) then
          [lit "highlight", lit "chunk", lit "diff"]
        else [])
  else []

/-- The hardcoded dependency queries keyed on substrings of the target
method id (lines 192-218). -/
def hardcodedQueries (targetMethod : Str) : List Str :=
  (if containsSub (lit "ImageChunk") targetMethod then
    [lit "ImageChunk", lit "getIdentifier", lit "imageHash", lit "rectangle",
     lit "record ImageChunk", lit "com.example.pdfcompare.model.ImageChunk"]
   else [])
  ++ (if containsSub (lit "PdfContentByte") targetMethod then [lit "PdfContentByte"] else [])
  ++ (if containsSub (lit "BaseColor") targetMethod then [lit "BaseColor"] else [])
  ++ (if containsSub (lit "TextChunk") targetMethod then
        [lit "TextChunk", lit "record TextChunk", lit "com.example.pdfcompare.model.TextChunk"]
      else [])
  ++ [lit "record", lit "model", lit "com.example.pdfcompare.model"]

/-- Merge one query's hits into the accumulated results, skipping hits with
falsy ids or already-seen ids and tagging each kept hit with its query. -/
def mergeHits (q : Str) : List RawResult → List RawResult → List Str →
    List RawResult × List Str
  | [], acc, seen => (acc, seen)
  | hit :: hits, acc, seen =>
    match hit.id with
    | some rid =>
      if rid ≠ [] ∧ rid ∉ seen then
        mergeHits q hits (acc ++ [{ hit with query := some q }]) (rid :: seen)
      else mergeHits q hits acc seen
    | none => mergeHits q hits acc seen

/-- The query-execution loop of `find_relevant_context` (lines 220-239):
run every query with the `language=java` filter and merge, deduplicating
by store id. -/
def runQueries (search : Str → Nat → List (Str × Str) → List RawResult) (topK : Nat) :
    List Str → List RawResult → List Str → List RawResult
  | [], acc, _ => acc
  | q :: qs, acc, seen =>
    let hits := search q topK [(lit "language", lit "java")]
    let (acc1, seen1) := mergeHits q hits acc seen
    runQueries search topK qs acc1 seen1

/-- One import's pass of `_ensure_imported_class_definitions`: if no result
already holds a full definition (`class X`/`record X`, length > 100),
search directly and splice in the first qualifying hit at distance 0.5. -/
def ensureOneImportedDef (search : Str → Nat → List (Str × Str) → List RawResult)
    (ic : Str) (results : List RawResult) : List RawResult :=
  let isFullDef : RawResult → Bool := fun r =>
    (containsSub (lit "class " ++ ic) r.content ||
     containsSub (lit "record " ++ ic) r.content) && r.content.length > 100
  if results.any isFullDef then results
  else
    let defs := search (lit "class " ++ ic) 3 [(lit "language", lit "java")]
    match defs.find? isFullDef with
    | some d =>
      results ++ [{ d with query := some (lit "imported_class_definition_" ++ ic),
                           distance := some 50 }]
    | none => results

/-- `_ensure_imported_class_definitions`. -/
def ensureImportedClassDefinitions (search : Str → Nat → List (Str × Str) → List RawResult)
    (fc : FileCollab) (idx : TypeIndex) (projectPath : Str)
    (className : Option Str) (results : List RawResult) : List RawResult :=
  if ¬ optTruthy className then results
  else
    match resolveType idx (pyShow className) with
    | none => results
    | some ci =>
      match fc.readFile (pathJoin projectPath ci.filePath) with
      | none => results
      | some content =>
        (findallImportLocal content.length content).foldl
          (fun acc pi => ensureOneImportedDef search pi.2 acc) results

/-- Anchored match of `record\s+(\w+)`, returning the group and suffix. -/
def recordNameAt (s : Str) : Option (Str × Str) :=
  if startsWith (lit "record") s then
    let r1 := s.drop 6
    if r1.takeWhile isSpc = [] then none
    else
      let r2 := r1.dropWhile isSpc
      let w := r2.takeWhile isWordChar
      if w = [] then none else some (w, r2.dropWhile isWordChar)
  else none

/-- `re.findall(r'record\s+(\w+)', content)`. -/
def findallRecordNames : Nat → Str → List Str
  | 0, _ => []
  | _, [] => []
  | fuel + 1, c :: rest =>
    match recordNameAt (c :: rest) with
    | some (w, after) => w :: findallRecordNames fuel after
    | none => findallRecordNames fuel rest

/-- Insert-if-absent, modelling `set.add`/`set.update` as a
first-insertion-ordered duplicate-free list (CPython's set iteration order
is hash-dependent; any fixed order is a faithful refinement). -/
def insertNew (acc : List Str) (x : Str) : List Str :=
  if x ∈ acc then acc else acc ++ [x]

/-- The record-class collection loop of `_ensure_record_definitions`. -/
def collectRecordClasses (results : List RawResult) : List Str :=
  results.foldl
    (fun acc r =>
      let acc1 := (findallRecordNames r.content.length r.content).foldl insertNew acc
      if r.metadata.mtype = some (lit "class") ∧ containsSub (lit "record") r.content then
        match r.metadata.className with
        | some cn => if cn ≠ [] then insertNew acc1 cn else acc1
        | none => acc1
      else acc1)
    []

/-- Append the hits of one record-definition query that are not already
present by id. -/
def appendNewById (tag : Str) (hits : List RawResult) (acc : List RawResult) : List RawResult :=
  hits.foldl
    (fun acc2 hit =>
      match hit.id with
      | some rid =>
        if rid ≠ [] ∧ ¬ acc2.any (fun r => r.id = some rid) then
          acc2 ++ [{ hit with query := some tag }]
        else acc2
      | none => acc2)
    acc

/-- `_ensure_record_definitions`: for every `record X` mention in the
current results, run the three targeted queries and append unseen hits. -/
def ensureRecordDefinitions (search : Str → Nat → List (Str × Str) → List RawResult)
    (results : List RawResult) : List RawResult :=
  let recordClasses := collectRecordClasses results
  recordClasses.foldl
    (fun acc rc =>
      [lit "record " ++ rc, lit "public record " ++ rc, rc ++ lit " record"].foldl
        (fun acc2 q =>
          appendNewById (lit "record_definition:" ++ q)
            (search q 2 [(lit "language", lit "java")]) acc2)
        acc)
    results

/-- `_ensure_dependency_definitions`: `method_info` here is the dict built
by `_parse_method_signature`, which never carries a `method_body` key, so
`method_info.get('method_body', '')` is always empty and the function
returns a copy of its input. -/
def ensureDependencyDefinitions (results : List RawResult) : List RawResult :=
  results

/-- `', '.join` of rendered constructor parameters. -/
def joinParams (ps : List (Str × Str)) : Str :=
  List.intercalate (lit ", ") (ps.map fun p => p.1 ++ lit " " ++ p.2)

/-- Python `str(i)` for the small indices used below. -/
def natToStr (n : Nat) : Str := (toString n).toList

/-- `_format_smart_analysis`: the synthesized authoritative context text. -/
def formatSmartAnalysis (ci : AnalyzedClass) : Str :=
  let classType := if ci.isRecord then lit "record" else lit "class"
  let base := [lit " SMART ANALYSIS: " ++ classType ++ lit " " ++ ci.name,
               lit " Package: " ++ ci.pkg]
  let annots :=
    if ci.annotations ≠ [] then
      [lit " Annotations: " ++ List.intercalate (lit ", ") ci.annotations]
    else []
  let ctors :=
    (List.range ci.constructors.length).flatMap fun i =>
      match ci.constructors.get? i with
      | some ctor =>
        (if ctor.parameters ≠ [] then
          [lit " Constructor " ++ natToStr (i + 1) ++ lit ": " ++ ci.name ++ lit "(" ++
            joinParams ctor.parameters ++ lit ")"]
        else
          [lit " Constructor " ++ natToStr (i + 1) ++ lit ": " ++ ci.name ++
            lit "() - default constructor"])
        ++ (if ctor.annotations ≠ [] then
              [lit "   Annotations: " ++ List.intercalate (lit ", ") ctor.annotations]
            else [])
      | none => []
  let deps :=
    if ci.dependencies ≠ [] then
      [lit "🔗 Dependencies: " ++ List.intercalate (lit ", ") ci.dependencies]
    else []
  let hints :=
    (if ci.isRecord then [lit "  RECORD CLASS: Use exact constructor parameters!"] else [])
    ++ (if ci.isComponent then
          [lit "  SPRING COMPONENT: Use @Mock for dependencies and @InjectMocks for this class!"]
        else [])
    ++ (if ci.annotations.any (fun a => containsSub (lit "@RequiredArgsConstructor") a) then
          [lit "  LOMBOK @RequiredArgsConstructor: Cannot use no-arg constructor!"]
        else [])
  List.intercalate (lit "\n") (base ++ annots ++ ctors ++ deps ++ hints)

/-- `_enhance_with_smart_analysis`: prepend a distance-0.1 synthesized
analysis of the target class and append distance-0.2 analyses of its
dependencies. -/
def enhanceWithSmartAnalysis (fc : FileCollab) (idx : TypeIndex) (projectPath : Str)
    (methodInfo : MethodInfo) (results : List RawResult) : List RawResult :=
  if ¬ optTruthy methodInfo.className then results
  else
    let cn := pyShow methodInfo.className
    match resolveType idx cn with
    | none => results
    | some ci =>
      match fc.readFile (pathJoin projectPath ci.filePath) with
      | none => results
      | some _ =>
        match fc.analyzeClass (pathJoin projectPath ci.filePath) with
        | none => results
        | some ac =>
          let head : RawResult :=
            ⟨formatSmartAnalysis ac,
             { mtype := some (lit "smart_analysis"), className := some cn,
               pkg := some ac.pkg, language := some (lit "java"),
               isRecord := some ac.isRecord, isComponent := some ac.isComponent },
             some 10, some (lit "smart_analysis_" ++ cn), some (lit "smart_analysis")⟩
          let withHead := head :: results
          ac.dependencies.foldl
            (fun acc dep =>
              match resolveType idx dep with
              | none => acc
              | some dci =>
                match fc.readFile (pathJoin projectPath dci.filePath) with
                | none => acc
                | some _ =>
                  match fc.analyzeClass (pathJoin projectPath dci.filePath) with
                  | none => acc
                  | some adep =>
                    acc ++ [⟨formatSmartAnalysis adep,
                      { mtype := some (lit "smart_analysis_dependency"),
                        className := some dep, pkg := some adep.pkg,
                        language := some (lit "java"),
                        isRecord := some adep.isRecord,
                        isComponent := some adep.isComponent },
                      some 20, some (lit "smart_analysis_dep_" ++ dep),
                      some (lit "smart_analysis_dependency_" ++ dep)⟩])
            withHead

/-- `_add_external_library_context`: the `method_info` dict built by
`_parse_method_signature` has neither `signature` nor `method_body`, so
both default to `''`, the pattern scan over `' '` finds no class names,
and the function returns a copy of its input. -/
def addExternalLibraryContext (results : List RawResult) : List RawResult :=
  results

/-- Sort key `x.get('distance', 1.0)` (scaled: 1.0 becomes 100). -/
def distKey (r : RawResult) : Int := r.distance.getD 100

/-- The final two lines of `find_relevant_context`:
`all_results.sort(key=lambda x: x.get('distance', 1.0))` (Python's sort is
stable and ascending, exactly as `List.insertionSort` with `≤` on the key)
followed by `all_results[:top_k]`. -/
def rankAndTruncate (topK : Nat) (l : List RawResult) : List RawResult :=
  (l.insertionSort fun a b => distKey a ≤ distKey b).take topK

instance : IsTotal RawResult (fun a b => distKey a ≤ distKey b) :=
  ⟨fun a b => Int.le_total (distKey a) (distKey b)⟩

instance : IsTrans RawResult (fun a b => distKey a ≤ distKey b) :=
  ⟨fun _ _ _ => Int.le_trans⟩

/-- `find_relevant_context`: derive the query set, execute and merge,
run the invariant passes, then sort ascending by distance (Python's
`list.sort` is stable, as is `List.insertionSort`) and truncate to
`top_k`.  `force_reindex` only re-populates the collaborator-owned store,
which this embedding holds fixed, so it does not appear here. -/
def findRelevantContext (collab : Str → Nat → WhereClause → Except Str ChromaReply)
    (fc : FileCollab) (idx : TypeIndex) (projectPath : Str)
    (targetMethod : Str) (queryDescription : Option Str) (topK : Nat)
    (methodSignature : Option Str) : List RawResult :=
  let search := searchSimilarCode collab
  let methodInfo := parseMethodSignature targetMethod
  let queries :=
    [methodInfo.methodName]
    ++ (if optTruthy methodInfo.className then
          [pyShow methodInfo.className ++ lit " " ++ methodInfo.methodName,
           pyShow methodInfo.className]
        else [])
    ++ (match queryDescription with
        | some d => if d ≠ [] then [d] else []
        | none => [])
    ++ (match methodSignature with
        | some sig => if sig ≠ [] then buildParameterTypeQueries idx sig else []
        | none => [])
    ++ buildImportedClassQueries fc idx projectPath methodInfo.className
    ++ buildClassDefinitionQueries methodInfo.className
    ++ methodNamePatternQueries methodInfo.methodName
    ++ hardcodedQueries targetMethod
  let merged := runQueries search topK queries [] []
  let r1 := ensureImportedClassDefinitions search fc idx projectPath
    methodInfo.className merged
  let r2 := ensureRecordDefinitions search r1
  let r3 := ensureDependencyDefinitions r2
  let r4 := enhanceWithSmartAnalysis fc idx projectPath methodInfo r3
  let r5 := addExternalLibraryContext r4
  rankAndTruncate topK r5

/-- A file-system collaborator that finds nothing. -/
def noFileCollab : FileCollab := ⟨fun _ => none, fun _ => none⟩

/-- A store reply with two hits at (scaled) distances 0.2 and 0.5. -/
def cexAscReply : ChromaReply :=
  ⟨[[lit "one snippet", lit "two snippet"]], some [[{}, {}]],
   some [[20, 50]], some [[lit "id1", lit "id2"]]⟩

/-- A store that answers every query with `cexAscReply`. -/
def cexAscStore : Str → Nat → WhereClause → Except Str ChromaReply :=
  fun _ _ _ => Except.ok cexAscReply

/-- A retrieval run whose two results have strictly increasing distances. -/
def cexAscRun : List RawResult :=
  findRelevantContext cexAscStore noFileCollab TypeResolver.TypeIndex.empty
    (lit "/p") (lit "a.B#m") none 5 none

/-- A store reply whose only hit merely mentions `record Foo` (12 characters
of content, no full definition anywhere in the store). -/
def cexRecReply : ChromaReply :=
  ⟨[[lit "x record Foo"]], some [[{}]], some [[20]], some [[lit "r1"]]⟩

/-- A store that answers every query with `cexRecReply`. -/
def cexRecStore : Str → Nat → WhereClause → Except Str ChromaReply :=
  fun _ _ _ => Except.ok cexRecReply

/-- A retrieval run that mentions `record Foo` but holds no qualifying
definition item. -/
def cexRecRun : List RawResult :=
  findRelevantContext cexRecStore noFileCollab TypeResolver.TypeIndex.empty
    (lit "/p") (lit "a.B#m") none 5 none

/-- Replace a store's failures by successful empty replies; `find_relevant_context`
cannot tell the two apart because `search_similar_code` catches the raise. -/
def patchStore (collab : Str → Nat → WhereClause → Except Str ChromaReply) :
    Str → Nat → WhereClause → Except Str ChromaReply :=
  fun q k w =>
    match collab q k w with
    | Except.error _ => Except.ok ⟨[], none, none, none⟩
    | Except.ok r => Except.ok r

/-- A store whose every call raises. -/
def cexFailStore : Str → Nat → WhereClause → Except Str ChromaReply :=
  fun _ _ _ => Except.error (lit "connection error")

end Retrieval


namespace FixLoop

/-- A compiler collaborator that fails every attempt with the symbol error of
Scenario C. -/
def cexCompileTest : String → Bool × String :=
  fun _ => (false, "cannot find symbol: class Foo")

/-- A fixer collaborator that always produces a fresh candidate. -/
def cexCompileFixer : String → String → Option String :=
  fun c _ => some (c ++ " // fixed")

end FixLoop

end LLM4Test


namespace LLM4Test

set_option maxRecDepth 1000000

namespace Sanitizer

theorem not_hasSpan_nil : ¬ HasSpan [] := by
  rintro ⟨l, m, r, heq, hm, hr⟩
  have hlen := congrArg List.length heq
  simp at hlen
  omega

theorem hasSpan_cons_iff (c : Char) (t : Str) :
    HasSpan (c :: t) ↔
      (c = '<' ∧ ∃ m r, t = m ++ '>' :: r ∧ m ≠ [] ∧ '>' ∉ m) ∨ HasSpan t := by
  constructor
  · rintro ⟨l, m, r, heq, hm, hr⟩
    cases l with
    | nil =>
      simp only [List.nil_append, List.cons.injEq] at heq
      exact Or.inl ⟨heq.1, m, r, heq.2, hm, hr⟩
    | cons a l2 =>
      simp only [List.cons_append, List.cons.injEq] at heq
      exact Or.inr ⟨l2, m, r, heq.2, hm, hr⟩
  · rintro (⟨hc, m, r, heq, hm, hr⟩ | ⟨l, m, r, heq, hm, hr⟩)
    · exact ⟨[], m, r, by rw [hc, heq]; rfl, hm, hr⟩
    · exact ⟨c :: l, m, r, by rw [heq]; rfl, hm, hr⟩

theorem hasSpan_glue {a b : Str} {a1 a2 b1 b2 : Str}
    (ha : a = a1 ++ '<' :: a2) (hb : b = b1 ++ '>' :: b2)
    (h2 : '>' ∉ a2) (h1 : '>' ∉ b1) (hne : a2 ≠ [] ∨ b1 ≠ []) :
    HasSpan (a ++ b) := by
  refine ⟨a1, a2 ++ b1, b2, ?_, ?_, ?_⟩
  · rw [ha, hb]; simp
  · rcases hne with h | h <;> simp [h]
  · intro hmem
    rcases List.mem_append.mp hmem with h | h
    · exact h2 h
    · exact h1 h

theorem hasSpan_append_cases : ∀ (a b : Str), HasSpan (a ++ b) →
    HasSpan a ∨ HasSpan b ∨
      (∃ a1 a2, a = a1 ++ '<' :: a2 ∧ '>' ∉ a2 ∧
        ∃ b1 b2, b = b1 ++ '>' :: b2 ∧ '>' ∉ b1 ∧ (a2 ≠ [] ∨ b1 ≠ []))
  | [], b, h => Or.inr (Or.inl (by simpa using h))
  | c :: a', b, h => by
    rw [List.cons_append, hasSpan_cons_iff] at h
    rcases h with ⟨hc, m, r, heq, hm, hnot⟩ | h2
    · subst hc
      rcases List.append_eq_append_iff.mp heq with ⟨a2', hm2, hb2⟩ | ⟨c', ha2, hc2⟩
      · -- m = a' ++ a2', b = a2' ++ '>' :: r
        refine Or.inr (Or.inr ⟨[], a', rfl, ?_, a2', r, hb2, ?_, ?_⟩)
        · exact fun hmem => hnot (hm2 ▸ List.mem_append.mpr (Or.inl hmem))
        · exact fun hmem => hnot (hm2 ▸ List.mem_append.mpr (Or.inr hmem))
        · rcases List.eq_nil_or_concat m with rfl | _
          · exact absurd rfl hm
          · by_cases h' : a' = []
            · subst h'
              simp only [List.nil_append] at hm2
              exact Or.inr (by rw [← hm2]; exact hm)
            · exact Or.inl h'
      · -- a' = m ++ c', '>' :: r = c' ++ b
        cases c' with
        | nil =>
          simp only [List.nil_append] at hc2
          refine Or.inr (Or.inr ⟨[], m, by rw [ha2]; simp, hnot, [], r, ?_, by simp, Or.inl hm⟩)
          rw [← hc2]; rfl
        | cons d c2 =>
          simp only [List.cons_append, List.cons.injEq] at hc2
          refine Or.inl ⟨[], m, c2, ?_, hm, hnot⟩
          rw [ha2, ← hc2.1]
          simp [hc2.2]
    · rcases hasSpan_append_cases a' b h2 with h3 | h3 | ⟨a1, a2, ha, h2', rest⟩
      · exact Or.inl ((hasSpan_cons_iff c a').mpr (Or.inr h3))
      · exact Or.inr (Or.inl h3)
      · exact Or.inr (Or.inr ⟨c :: a1, a2, by rw [ha]; rfl, h2', rest⟩)

theorem not_hasSpan_of_no_gt {s : Str} (h : '>' ∉ s) : ¬ HasSpan s := by
  rintro ⟨l, m, r, heq, hm, hr⟩
  exact h (by rw [heq]; simp)

theorem hasSpanOfInfix {t s : Str} (hinf : t <:+: s) (h : HasSpan t) : HasSpan s := by
  obtain ⟨u, v, huv⟩ := hinf
  obtain ⟨l, m, r, heq, hm, hr⟩ := h
  exact ⟨u ++ l, m, r ++ v, by rw [← huv, heq]; simp, hm, hr⟩

theorem not_hasSpan_append {a b : Str} (ha : ¬ HasSpan a) (hb : '>' ∉ b) :
    ¬ HasSpan (a ++ b) := by
  intro h
  rcases hasSpan_append_cases a b h with h1 | h1 | ⟨a1, a2, _, _, b1, b2, hbe, _, _⟩
  · exact ha h1
  · exact not_hasSpan_of_no_gt hb h1
  · exact hb (by rw [hbe]; simp)

theorem first_gt_decomp : ∀ {s : Str}, '>' ∈ s → ∃ m r, s = m ++ '>' :: r ∧ '>' ∉ m
  | [], h => absurd h (List.not_mem_nil _)
  | c :: rest, h => by
    by_cases hc : c = '>'
    · exact ⟨[], rest, by rw [hc]; rfl, by simp⟩
    · have hmem : '>' ∈ rest := by
        rcases List.mem_cons.mp h with h1 | h1
        · exact absurd h1.symm hc
        · exact h1
      obtain ⟨m, r, heq, hm⟩ := first_gt_decomp hmem
      refine ⟨c :: m, r, by rw [heq]; rfl, ?_⟩
      intro h2
      rcases List.mem_cons.mp h2 with h3 | h3
      · exact hc h3.symm
      · exact hm h3

end Sanitizer

namespace Sanitizer

theorem hasSpan_cons_of_ne {c : Char} (t : Str) (hc : ¬ c = '<') :
    HasSpan (c :: t) ↔ HasSpan t := by
  rw [hasSpan_cons_iff]
  simp [hc]

theorem not_hasSpan_lt_gt {t : Str} (h : ¬ HasSpan t) : ¬ HasSpan ('<' :: '>' :: t) := by
  rw [hasSpan_cons_iff]
  rintro (⟨_, m, r, heq, hm, hr⟩ | h2)
  · cases m with
    | nil => exact hm rfl
    | cons a m2 =>
      simp only [List.cons_append, List.cons.injEq] at heq
      exact hr (heq.1 ▸ List.mem_cons_self _ _)
  · rw [hasSpan_cons_of_ne _ (by decide)] at h2
    exact h h2

theorem not_hasSpan_lt_of_no_gt {t : Str} (h : '>' ∉ t) : ¬ HasSpan ('<' :: t) := by
  rw [hasSpan_cons_iff]
  rintro (⟨_, m, r, heq, hm, hr⟩ | h2)
  · exact h (by rw [heq]; simp)
  · exact not_hasSpan_of_no_gt h h2

theorem removeAngleSpansGo_noSpan : ∀ (s : Str) (st : Option Str),
    (∀ buf, st = some buf → '>' ∉ buf) → ¬ HasSpan (removeAngleSpansGo st s)
  | [], none, _ => by simpa [removeAngleSpansGo] using not_hasSpan_nil
  | [], some buf, hb => by
    simp only [removeAngleSpansGo]
    exact not_hasSpan_lt_of_no_gt (by simpa using hb buf rfl)
  | c :: rest, none, _ => by
    simp only [removeAngleSpansGo]
    split
    · exact removeAngleSpansGo_noSpan rest (some []) (by simp)
    · next hc =>
      rw [hasSpan_cons_of_ne _ hc]
      exact removeAngleSpansGo_noSpan rest none (by simp)
  | c :: rest, some buf, hb => by
    simp only [removeAngleSpansGo]
    split
    · split
      · exact not_hasSpan_lt_gt (removeAngleSpansGo_noSpan rest none (by simp))
      · exact removeAngleSpansGo_noSpan rest none (by simp)
    · next hc =>
      refine removeAngleSpansGo_noSpan rest (some (c :: buf)) ?_
      intro buf2 hbuf2 hmem
      cases hbuf2
      rcases List.mem_cons.mp hmem with rfl | hmem2
      · exact hc rfl
      · exact hb buf rfl hmem2

theorem removeAngleSpans_noSpan (s : Str) : ¬ HasSpan (removeAngleSpans s) :=
  removeAngleSpansGo_noSpan s none (by simp)

theorem noSpanOfInfix {t s : Str} (h : ¬ HasSpan s) (hinf : t <:+: s) : ¬ HasSpan t :=
  fun ht => h (hasSpanOfInfix hinf ht)

theorem noSpan_cons {c : Char} {t : Str} (h : ¬ HasSpan (c :: t)) : ¬ HasSpan t :=
  fun ht => h ((hasSpan_cons_iff c t).mpr (Or.inr ht))

theorem noSpan_lt_gt_head {rest : Str} (h : ¬ HasSpan ('<' :: rest)) (hgt : '>' ∈ rest) :
    ∃ r2, rest = '>' :: r2 := by
  obtain ⟨m, r, heq, hm⟩ := first_gt_decomp hgt
  cases m with
  | nil => exact ⟨r, by simpa using heq⟩
  | cons a m2 =>
    exact absurd ((hasSpan_cons_iff '<' rest).mpr
      (Or.inl ⟨rfl, a :: m2, r, heq, by simp, hm⟩)) h

theorem removeFenceJava_sublist : ∀ (fuel : Nat) (s : Str),
    List.Sublist (removeFenceJava fuel s) s
  | 0, s => by cases s <;> exact List.Sublist.refl _
  | fuel + 1, [] => by simp [removeFenceJava]
  | fuel + 1, c :: rest => by
    simp only [removeFenceJava]
    split
    · exact ((removeFenceJava_sublist fuel _).trans
        ((List.dropWhile_sublist _).trans (List.drop_sublist _ _)))
    · exact (removeFenceJava_sublist fuel rest).cons₂ c

theorem startsWith_fence_gt (t : Str) : startsWith (lit "```java") ('>' :: t) = false := by
  simp [startsWith, lit, List.isPrefixOf]

theorem removeFenceJava_gt_head : ∀ (fuel : Nat) (r2 : Str),
    ∃ t, removeFenceJava fuel ('>' :: r2) = '>' :: t
  | 0, r2 => ⟨r2, by simp [removeFenceJava]⟩
  | fuel + 1, r2 => by
    simp only [removeFenceJava]
    rw [if_neg (by rw [startsWith_fence_gt]; simp)]
    exact ⟨removeFenceJava fuel r2, rfl⟩

theorem removeFenceJava_noSpan : ∀ (fuel : Nat) (s : Str),
    ¬ HasSpan s → ¬ HasSpan (removeFenceJava fuel s)
  | 0, s => by
    intro h
    cases s <;> simpa [removeFenceJava] using h
  | fuel + 1, [] => by simp [removeFenceJava, not_hasSpan_nil]
  | fuel + 1, c :: rest => by
    intro hns
    simp only [removeFenceJava]
    split
    · refine removeFenceJava_noSpan fuel _ (noSpanOfInfix hns ?_)
      exact ((List.dropWhile_suffix _).trans (List.drop_suffix _ _)).isInfix
    · by_cases hc : c = '<'
      · subst hc
        by_cases hgt : '>' ∈ rest
        · obtain ⟨r2, rfl⟩ := noSpan_lt_gt_head hns hgt
          obtain ⟨t, ht⟩ := removeFenceJava_gt_head fuel r2
          rw [ht]
          have hnt : ¬ HasSpan ('>' :: t) := by
            rw [← ht]
            exact removeFenceJava_noSpan fuel _ (noSpan_cons hns)
          exact not_hasSpan_lt_gt (by rwa [hasSpan_cons_of_ne _ (by decide)] at hnt)
        · refine not_hasSpan_lt_of_no_gt (fun hmem => hgt ?_)
          exact (removeFenceJava_sublist fuel rest).subset hmem
      · rw [hasSpan_cons_of_ne _ hc]
        exact removeFenceJava_noSpan fuel rest (noSpan_cons hns)

theorem removeTrailingFence_noSpan (s : Str) (h : ¬ HasSpan s) :
    ¬ HasSpan (removeTrailingFence s) := by
  refine noSpanOfInfix h ?_
  suffices hpre : ∀ (u : Str), removeTrailingFence u <+: u by
    exact (hpre s).isInfix
  intro u
  induction u with
  | nil => exact List.prefix_rfl
  | cons c rest ih =>
    simp only [removeTrailingFence]
    split
    · exact List.nil_prefix
    · obtain ⟨t, ht⟩ := ih
      exact ⟨t, by rw [List.cons_append, ht]⟩

end Sanitizer

namespace Sanitizer

theorem rstrip_decomp (s : Str) :
    ∃ w, s = rstrip s ++ w ∧ ∀ x ∈ w, isSpc x = true := by
  refine ⟨(s.reverse.takeWhile isSpc).reverse, ?_, ?_⟩
  · have h := List.takeWhile_append_dropWhile (p := isSpc) (l := s.reverse)
    have h2 := congrArg List.reverse h
    rw [List.reverse_append, List.reverse_reverse] at h2
    exact h2.symm
  · intro x hx
    rw [List.mem_reverse] at hx
    exact List.mem_takeWhile_imp hx

theorem rstripPrefix (s : Str) : rstrip s <+: s := by
  obtain ⟨w, hw, _⟩ := rstrip_decomp s
  exact ⟨w, hw.symm⟩

theorem cross_core {a' a jr jp : Str}
    (Hrel : ∀ a1 a2, a' = a1 ++ '<' :: a2 → '>' ∉ a2 →
      ∃ A1 A2, a = A1 ++ '<' :: A2 ∧ '>' ∉ A2)
    (hA' : ¬ HasSpan a') (H : ¬ HasSpan (a ++ '\n' :: jr))
    (h1 : ¬ HasSpan jp) (h2 : '>' ∈ jp → '>' ∈ jr) :
    ¬ HasSpan (a' ++ '\n' :: jp) := by
  intro hs
  rcases hasSpan_append_cases a' ('\n' :: jp) hs with hx | hx |
    ⟨a1, a2, ha', hna2, b1, b2, hb, hnb1, _⟩
  · exact hA' hx
  · rw [hasSpan_cons_of_ne _ (by decide)] at hx
    exact h1 hx
  · cases b1 with
    | nil =>
      simp only [List.nil_append, List.cons.injEq] at hb
      exact absurd hb.1 (by decide)
    | cons d b1' =>
      simp only [List.cons_append, List.cons.injEq] at hb
      have hjp : jp = b1' ++ '>' :: b2 := hb.2
      have hgt : '>' ∈ jr := h2 (by rw [hjp]; simp)
      obtain ⟨m2, r2, hjr, hm2⟩ := first_gt_decomp hgt
      obtain ⟨A1, A2, hA, hnA2⟩ := Hrel a1 a2 ha' hna2
      refine H (@hasSpan_glue a ('\n' :: jr) A1 A2 ('\n' :: m2) r2 hA ?_ hnA2 ?_
        (Or.inr (by simp)))
      · rw [hjr]; rfl
      · intro hmem
        rcases List.mem_cons.mp hmem with h3 | h3
        · exact absurd h3 (by decide)
        · exact hm2 h3

theorem cross_unmodified {a jr jp : Str} (H : ¬ HasSpan (a ++ '\n' :: jr))
    (h1 : ¬ HasSpan jp) (h2 : '>' ∈ jp → '>' ∈ jr) :
    ¬ HasSpan (a ++ '\n' :: jp) := by
  refine cross_core (fun a1 a2 h hn => ⟨a1, a2, h, hn⟩) ?_ H h1 h2
  exact noSpanOfInfix H ⟨[], '\n' :: jr, rfl⟩

theorem append_singleton_inj {xs ys : Str} {x y : Char}
    (h : xs ++ [x] = ys ++ [y]) : xs = ys ∧ x = y := by
  have hr := congrArg List.reverse h
  simp only [List.reverse_append, List.reverse_cons, List.reverse_nil,
    List.nil_append, List.cons_append, List.cons.injEq] at hr
  refine ⟨?_, hr.1⟩
  have h2 := congrArg List.reverse hr.2
  simpa using h2

theorem cross_modified {a jr jp : Str} (H : ¬ HasSpan (a ++ '\n' :: jr))
    (h1 : ¬ HasSpan jp) (h2 : '>' ∈ jp → '>' ∈ jr) :
    ¬ HasSpan ((rstrip a ++ ['"']) ++ '\n' :: jp) := by
  have hnoa : ¬ HasSpan a := noSpanOfInfix H ⟨[], '\n' :: jr, rfl⟩
  have hnors : ¬ HasSpan (rstrip a) :=
    noSpanOfInfix hnoa (rstripPrefix a).isInfix
  refine cross_core ?_ (not_hasSpan_append hnors (by decide)) H h1 h2
  intro a1 a2 heq hna2
  obtain ⟨w, hw, hws⟩ := rstrip_decomp a
  rcases List.eq_nil_or_concat a2 with rfl | ⟨a2', q, rfl⟩
  · exfalso
    have hlast := congrArg List.getLast? heq
    rw [List.getLast?_concat] at hlast
    have hx : (a1 ++ '<' :: ([] : Str)).getLast? = some '<' := by
      rw [show a1 ++ '<' :: ([] : Str) = a1 ++ ['<'] from rfl, List.getLast?_concat]
    rw [hx] at hlast
    simp at hlast
  · have heq2 : rstrip a ++ ['"'] = (a1 ++ '<' :: a2') ++ [q] := by
      rw [heq]; simp
    obtain ⟨hinit, _⟩ := append_singleton_inj heq2
    refine ⟨a1, a2' ++ w, ?_, ?_⟩
    · rw [hw, hinit]; simp
    · intro hmem
      rcases List.mem_append.mp hmem with h3 | h3
      · exact hna2 (by simp [h3])
      · exact absurd (hws '>' h3) (by decide)

end Sanitizer

namespace Sanitizer

theorem revDropWhilePrefix (p : Char → Bool) (s : Str) :
    (s.reverse.dropWhile p).reverse <+: s := by
  refine ⟨(s.reverse.takeWhile p).reverse, ?_⟩
  have h := List.takeWhile_append_dropWhile (p := p) (l := s.reverse)
  have h2 := congrArg List.reverse h
  rw [List.reverse_append, List.reverse_reverse] at h2
  exact h2

theorem pyStripInfix (s : Str) : pyStrip s <:+: s := by
  have h1 : pyStrip s <+: s.dropWhile isSpc := revDropWhilePrefix isSpc (s.dropWhile isSpc)
  exact h1.isInfix.trans (List.dropWhile_suffix isSpc).isInfix

theorem packageSuffix_suffix : ∀ s t : Str, packageSuffix s = some t → t <:+ s
  | [], t, h => by simp [packageSuffix] at h
  | c :: rest, t, h => by
    rw [packageSuffix] at h
    split at h
    · cases h; exact List.suffix_refl _
    · exact (packageSuffix_suffix rest t h).trans (List.suffix_cons c rest)

theorem joinNl_cons_ne (a : Str) (t : List Str) (ht : t ≠ []) :
    joinNl (a :: t) = a ++ '\n' :: joinNl t := by
  cases t with
  | nil => exact absurd rfl ht
  | cons b t2 => rfl

theorem joinNl_append (ls ks : List Str) (hls : ls ≠ []) (hks : ks ≠ []) :
    joinNl (ls ++ ks) = joinNl ls ++ '\n' :: joinNl ks := by
  induction ls with
  | nil => exact absurd rfl hls
  | cons a t ih =>
    cases t with
    | nil =>
      cases ks with
      | nil => exact absurd rfl hks
      | cons k ks2 => simp [joinNl]
    | cons b t2 =>
      have h := ih (by simp)
      simp only [List.cons_append] at h ⊢
      show a ++ '\n' :: joinNl (b :: (t2 ++ ks)) =
        (a ++ '\n' :: joinNl (b :: t2)) ++ '\n' :: joinNl ks
      rw [h]
      simp

theorem splitLinesGo_ne_nil : ∀ (s cur : Str), splitLinesGo s cur ≠ []
  | [], cur => by simp [splitLinesGo]
  | c :: rest, cur => by
    rw [splitLinesGo]
    split
    · simp
    · exact splitLinesGo_ne_nil rest (c :: cur)

theorem joinNl_splitLinesGo : ∀ (s cur : Str),
    joinNl (splitLinesGo s cur) = cur.reverse ++ s
  | [], cur => by simp [splitLinesGo, joinNl]
  | c :: rest, cur => by
    rw [splitLinesGo]
    split
    · rename_i hc
      rw [joinNl_cons_ne _ _ (splitLinesGo_ne_nil rest []),
        joinNl_splitLinesGo rest []]
      simp [hc]
    · rw [joinNl_splitLinesGo rest (c :: cur)]
      simp

theorem joinNl_splitLines (s : Str) : joinNl (splitLines s) = s := by
  simpa using joinNl_splitLinesGo s []

theorem gt_not_mem_joinNl_braces : ∀ n : Nat, '>' ∉ joinNl (List.replicate n [rbrace])
  | 0 => by simp [joinNl]
  | 1 => by
    intro hm
    simp [joinNl, List.replicate] at hm
    exact absurd hm (by decide)
  | n + 2 => by
    intro hm
    rw [List.replicate_succ, joinNl_cons_ne _ _ (by simp)] at hm
    rcases List.mem_append.mp hm with h | h
    · exact absurd (List.mem_singleton.mp h) (by decide)
    · rcases List.mem_cons.mp h with h2 | h2
      · exact absurd h2 (by decide)
      · exact gt_not_mem_joinNl_braces (n + 1) h2

theorem processLines_cons (st : JState) (l : Str) (ls : List Str) :
    processLines st (l :: ls) =
      if (scanLine st l).inString ∧ ¬ ((rstrip l).getLast? = some '"') then
        ((rstrip l ++ ['"']) ::
            (processLines { scanLine st l with inString := false } ls).1,
          (processLines { scanLine st l with inString := false } ls).2)
      else
        (l :: (processLines (scanLine st l) ls).1,
          (processLines (scanLine st l) ls).2) := by
  rw [processLines]

theorem processLines_fst_ne_nil (st : JState) (l : Str) (ls : List Str) :
    (processLines st (l :: ls)).1 ≠ [] := by
  rw [processLines_cons]
  split <;> simp

theorem gt_mem_mod {line : Str} (hm : '>' ∈ rstrip line ++ ['"']) : '>' ∈ line := by
  rcases List.mem_append.mp hm with h | h
  · exact (rstripPrefix line).subset h
  · exact absurd (List.mem_singleton.mp h) (by decide)

theorem processLines_noSpan : ∀ (lines : List Str) (st : JState),
    ¬ HasSpan (joinNl lines) →
      ¬ HasSpan (joinNl (processLines st lines).1) ∧
        ('>' ∈ joinNl (processLines st lines).1 → '>' ∈ joinNl lines)
  | [], st, h => by
    refine ⟨?_, ?_⟩ <;> simp [processLines, joinNl, not_hasSpan_nil]
  | [line], st, h => by
    rw [processLines_cons]
    have hline : ¬ HasSpan line := h
    split
    · simp only [processLines, joinNl]
      refine ⟨not_hasSpan_append (noSpanOfInfix hline (rstripPrefix line).isInfix)
        (by decide), fun hm => gt_mem_mod hm⟩
    · simp only [processLines, joinNl]
      exact ⟨hline, id⟩
  | line :: l2 :: rs, st, h => by
    have hjoin : joinNl (line :: l2 :: rs) = line ++ '\n' :: joinNl (l2 :: rs) := rfl
    rw [hjoin] at h
    have htail : ¬ HasSpan (joinNl (l2 :: rs)) :=
      noSpanOfInfix h ⟨line ++ ['\n'], [], by simp⟩
    rw [processLines_cons]
    split
    · have ih := processLines_noSpan (l2 :: rs) { scanLine st line with inString := false } htail
      have hne := processLines_fst_ne_nil { scanLine st line with inString := false } l2 rs
      refine ⟨?_, ?_⟩
      · simp only []
        rw [joinNl_cons_ne _ _ hne]
        exact cross_modified h ih.1 ih.2
      · intro hm
        simp only [] at hm
        rw [joinNl_cons_ne _ _ hne] at hm
        rw [hjoin]
        rcases List.mem_append.mp hm with h3 | h3
        · exact List.mem_append_left _ (gt_mem_mod h3)
        · rcases List.mem_cons.mp h3 with h4 | h4
          · exact absurd h4 (by decide)
          · exact List.mem_append_right _ (List.mem_cons_of_mem _ (ih.2 h4))
    · have ih := processLines_noSpan (l2 :: rs) (scanLine st line) htail
      have hne := processLines_fst_ne_nil (scanLine st line) l2 rs
      refine ⟨?_, ?_⟩
      · simp only []
        rw [joinNl_cons_ne _ _ hne]
        exact cross_unmodified h ih.1 ih.2
      · intro hm
        simp only [] at hm
        rw [joinNl_cons_ne _ _ hne] at hm
        rw [hjoin]
        rcases List.mem_append.mp hm with h3 | h3
        · exact List.mem_append_left _ h3
        · rcases List.mem_cons.mp h3 with h4 | h4
          · exact absurd h4 (by decide)
          · exact List.mem_append_right _ (List.mem_cons_of_mem _ (ih.2 h4))

theorem fixIncompleteJavaCode_noSpan {code : Str} (h : ¬ HasSpan code) :
    ¬ HasSpan (fixIncompleteJavaCode code) := by
  unfold fixIncompleteJavaCode
  have hmain := processLines_noSpan (splitLines code) ⟨0, false, false⟩
    (by rw [joinNl_splitLines]; exact h)
  have hne : (processLines ⟨0, false, false⟩ (splitLines code)).1 ≠ [] := by
    unfold splitLines
    cases hs : splitLinesGo code [] with
    | nil => exact absurd hs (splitLinesGo_ne_nil code [])
    | cons a t => exact processLines_fst_ne_nil _ a t
  rcases hq : processLines ⟨0, false, false⟩ (splitLines code) with ⟨ls, bc⟩
  rw [hq] at hmain hne
  simp only []
  by_cases hz : bc.toNat = 0
  · rw [hz]
    simpa using hmain.1
  · rw [joinNl_append ls _ hne (by simp [hz])]
    refine not_hasSpan_append hmain.1 ?_
    intro hm
    rcases List.mem_cons.mp hm with h2 | h2
    · exact absurd h2 (by decide)
    · exact gt_not_mem_joinNl_braces _ h2

theorem sanitize_r5_noSpan (r5 : Str) (h5 : ¬ HasSpan r5) :
    ¬ HasSpan (pyStrip (if existsClassMatch r5 then truncAfterLastRbrace r5
      else fixIncompleteJavaCode r5)) := by
  by_cases hcm : existsClassMatch r5
  · rw [if_pos hcm]
    exact noSpanOfInfix
      (noSpanOfInfix h5 (revDropWhilePrefix _ r5).isInfix) (pyStripInfix _)
  · rw [if_neg hcm]
    exact noSpanOfInfix (fixIncompleteJavaCode_noSpan h5) (pyStripInfix _)

theorem cleanLlmResponse_noSpan (response : Str) :
    ¬ HasSpan (cleanLlmResponse response) := by
  have h4 : ¬ HasSpan (removeTrailingFence (removeFenceJava
      (removeAngleSpans (removeThink response.length response)).length
      (removeAngleSpans (removeThink response.length response)))) :=
    removeTrailingFence_noSpan _ (removeFenceJava_noSpan _ _ (removeAngleSpans_noSpan _))
  unfold cleanLlmResponse
  rcases hp : packageSuffix (removeTrailingFence (removeFenceJava
      (removeAngleSpans (removeThink response.length response)).length
      (removeAngleSpans (removeThink response.length response)))) with _ | suf
  · simp only [hp]
    exact sanitize_r5_noSpan _ h4
  · simp only [hp]
    exact sanitize_r5_noSpan _
      (noSpanOfInfix h4 (packageSuffix_suffix _ _ hp).isInfix)

end Sanitizer

namespace Sanitizer

theorem startsWith_head_ne {d : Char} {t : Str} {c : Char} {rest : Str} (hc : ¬ c = d) :
    startsWith (d :: t) (c :: rest) = false := by
  show (d == c && List.isPrefixOf t rest) = false
  rw [beq_eq_false_iff_ne.mpr (fun hh => hc hh.symm), Bool.false_and]

theorem removeThink_id : ∀ (fuel : Nat) (x : Str), '<' ∉ x → removeThink fuel x = x
  | 0, x, _ => by cases x <;> rfl
  | _ + 1, [], _ => rfl
  | fuel + 1, c :: rest, h => by
    have hc : ¬ c = '<' := fun hh => h (by rw [hh]; exact List.mem_cons_self _ _)
    have hsw : startsWith (lit "<think>") (c :: rest) = false := startsWith_head_ne hc
    rw [removeThink, hsw]
    simp only [Bool.false_eq_true, if_false]
    rw [removeThink_id fuel rest (fun hm => h (List.mem_cons_of_mem c hm))]

theorem removeAngleSpansGo_id : ∀ x : Str, '<' ∉ x → removeAngleSpansGo none x = x
  | [], _ => rfl
  | c :: rest, h => by
    have hc : ¬ c = '<' := fun hh => h (by rw [hh]; exact List.mem_cons_self _ _)
    rw [removeAngleSpansGo, if_neg hc,
      removeAngleSpansGo_id rest (fun hm => h (List.mem_cons_of_mem c hm))]

theorem removeFenceJava_id : ∀ (fuel : Nat) (x : Str), Char.ofNat 96 ∉ x →
    removeFenceJava fuel x = x
  | 0, x, _ => by cases x <;> rfl
  | _ + 1, [], _ => rfl
  | fuel + 1, c :: rest, h => by
    have hc : ¬ c = Char.ofNat 96 := fun hh => h (by rw [hh]; exact List.mem_cons_self _ _)
    have hsw : startsWith (lit "```java") (c :: rest) = false := startsWith_head_ne hc
    rw [removeFenceJava, hsw]
    simp only [Bool.false_eq_true, if_false]
    rw [removeFenceJava_id fuel rest (fun hm => h (List.mem_cons_of_mem c hm))]

theorem removeTrailingFence_id : ∀ x : Str, Char.ofNat 96 ∉ x →
    removeTrailingFence x = x
  | [], _ => rfl
  | c :: rest, h => by
    have hc : ¬ c = Char.ofNat 96 := fun hh => h (by rw [hh]; exact List.mem_cons_self _ _)
    have hsw : startsWith (lit "```") (c :: rest) = false := startsWith_head_ne hc
    rw [removeTrailingFence, if_neg (fun hand => by rw [hsw] at hand; exact absurd hand.1 (by simp)),
      removeTrailingFence_id rest (fun hm => h (List.mem_cons_of_mem c hm))]

theorem packageSuffix_of_match (x : Str) (h : pkgMatchAt x = true) :
    packageSuffix x = some x := by
  cases x with
  | nil => exact absurd h (by decide)
  | cons c rest => rw [packageSuffix, if_pos h]

theorem head_p_of_pkgMatch (x : Str) (h : pkgMatchAt x = true) :
    ∃ r, x = 'p' :: r := by
  cases x with
  | nil => exact absurd h (by decide)
  | cons c rest =>
    refine ⟨rest, ?_⟩
    have h2 := h
    unfold pkgMatchAt at h2
    simp only [Bool.and_eq_true] at h2
    have hsw : startsWith (lit "package") (c :: rest) = true := h2.1
    have hpp : ('p' == c && List.isPrefixOf (lit "ackage") rest) = true := hsw
    simp only [Bool.and_eq_true] at hpp
    have hpc : 'p' = c := beq_iff_eq.mp hpp.1
    rw [← hpc]

theorem truncAfterLastRbrace_id (x : Str) (h : x.getLast? = some rbrace) :
    truncAfterLastRbrace x = x := by
  have hh : x.reverse.head? = some rbrace := by rw [List.head?_reverse, h]
  cases hr : x.reverse with
  | nil => rw [hr] at hh; exact absurd hh (by simp)
  | cons a t =>
    rw [hr] at hh
    have ha : a = rbrace := by simpa using hh
    rw [ha] at hr
    unfold truncAfterLastRbrace
    rw [hr, List.dropWhile_cons, if_neg (by decide)]
    rw [← hr, List.reverse_reverse]

theorem rstrip_id (x : Str) (h : x.getLast? = some rbrace) : rstrip x = x := by
  have hh : x.reverse.head? = some rbrace := by rw [List.head?_reverse, h]
  cases hr : x.reverse with
  | nil => rw [hr] at hh; exact absurd hh (by simp)
  | cons a t =>
    rw [hr] at hh
    have ha : a = rbrace := by simpa using hh
    rw [ha] at hr
    unfold rstrip
    rw [hr, List.dropWhile_cons, if_neg (by decide)]
    rw [← hr, List.reverse_reverse]

theorem pyStrip_id (x : Str) (hp : ∃ r, x = 'p' :: r) (h : x.getLast? = some rbrace) :
    pyStrip x = x := by
  obtain ⟨r, rfl⟩ := hp
  unfold pyStrip
  rw [List.dropWhile_cons, if_neg (by decide)]
  exact rstrip_id _ h

theorem cleanLlmResponse_id (x : Str) (h1 : '<' ∉ x) (h2 : Char.ofNat 96 ∉ x)
    (h3 : pkgMatchAt x = true) (h4 : existsClassMatch x = true)
    (h5 : x.getLast? = some rbrace) : cleanLlmResponse x = x := by
  simp only [cleanLlmResponse, removeAngleSpans, removeThink_id _ _ h1,
    removeAngleSpansGo_id x h1, removeFenceJava_id _ _ h2, removeTrailingFence_id _ h2,
    packageSuffix_of_match _ h3, h4, if_true, truncAfterLastRbrace_id _ h5]
  exact pyStrip_id _ (head_p_of_pkgMatch x h3) h5

theorem dropThroughPat_occurs : ∀ (pat s a : Str),
    dropThroughPat pat s = some a → pat <:+: s
  | pat, [], a => by simp [dropThroughPat]
  | pat, c :: rest, a => by
    rw [dropThroughPat]
    split
    · next hsw =>
      intro _
      exact (List.isPrefixOf_iff_prefix.mp hsw).isInfix
    · intro h
      exact (dropThroughPat_occurs pat rest a h).trans
        (List.suffix_cons c rest).isInfix

theorem removeThink_id_of_nothink : ∀ (fuel : Nat) (s : Str),
    ¬ (lit "</think>" <:+: s) → removeThink fuel s = s
  | 0, s, _ => by cases s <;> rfl
  | _ + 1, [], _ => rfl
  | fuel + 1, c :: rest, h => by
    have hrest : ¬ (lit "</think>" <:+: rest) :=
      fun hi => h (hi.trans (List.suffix_cons c rest).isInfix)
    rw [removeThink]
    split
    · cases hdp : dropThroughPat (lit "</think>") ((c :: rest).drop 7) with
      | some after =>
        exact absurd ((dropThroughPat_occurs _ _ _ hdp).trans
          (List.drop_suffix 7 (c :: rest)).isInfix) h
      | none => rw [removeThink_id_of_nothink fuel rest hrest]
    · rw [removeThink_id_of_nothink fuel rest hrest]

theorem removeAngleSpansGo_append_no_lt : ∀ (p s : Str), '<' ∉ p →
    removeAngleSpansGo none (p ++ s) = p ++ removeAngleSpansGo none s
  | [], s, _ => rfl
  | c :: p2, s, h => by
    rw [List.cons_append, removeAngleSpansGo,
      if_neg (fun hc => h (by rw [← hc]; exact List.mem_cons_self c p2)),
      removeAngleSpansGo_append_no_lt p2 s (fun hm => h (List.mem_cons_of_mem _ hm))]
    rfl

theorem removeAngleSpansGo_mem : ∀ (s : Str) (st : Option Str) (c : Char),
    c ∈ removeAngleSpansGo st s → c ∈ pendingOf st ++ s
  | [], none, c => by simp [removeAngleSpansGo]
  | [], some buf, c => by simp [removeAngleSpansGo, pendingOf]
  | c2 :: rest, none, c => by
    rw [removeAngleSpansGo]
    split
    · next hc2 =>
      intro hm
      have := removeAngleSpansGo_mem rest (some []) c hm
      simp only [pendingOf, List.reverse_nil, List.nil_append] at this ⊢
      rw [hc2]
      exact this
    · intro hm
      rcases List.mem_cons.mp hm with rfl | hm2
      · simp
      · have := removeAngleSpansGo_mem rest none c hm2
        simp only [pendingOf, List.nil_append] at this ⊢
        exact List.mem_cons_of_mem _ this
  | c2 :: rest, some buf, c => by
    rw [removeAngleSpansGo]
    split
    · split
      · next hgt hbuf =>
        subst hgt
        subst hbuf
        intro hm
        simp only [pendingOf, List.reverse_nil]
        rcases List.mem_cons.mp hm with rfl | hm2
        · simp
        · rcases List.mem_cons.mp hm2 with rfl | hm3
          · simp
          · have := removeAngleSpansGo_mem rest none c hm3
            simp only [pendingOf, List.nil_append] at this
            simp [this]
      · next hgt _ =>
        subst hgt
        intro hm
        have := removeAngleSpansGo_mem rest none c hm
        simp only [pendingOf, List.nil_append] at this
        simp only [pendingOf, List.cons_append]
        exact List.mem_cons_of_mem _
          (List.mem_append_right _ (List.mem_cons_of_mem _ this))
    · intro hm
      have := removeAngleSpansGo_mem rest (some (c2 :: buf)) c hm
      simp only [pendingOf, List.reverse_cons, List.cons_append,
        List.append_assoc, List.singleton_append] at this ⊢
      exact this

theorem removeAngleSpans_mem {x : Str} {c : Char} (h : c ∈ removeAngleSpans x) :
    c ∈ x := by
  have := removeAngleSpansGo_mem x none c h
  simpa [pendingOf] using this

theorem removeAngleSpansGo_noSpan_id : ∀ (s : Str) (st : Option Str),
    (∀ b, st = some b → '>' ∉ b) → ¬ HasSpan (pendingOf st ++ s) →
    removeAngleSpansGo st s = pendingOf st ++ s
  | [], none, _, _ => rfl
  | [], some buf, _, _ => by simp [removeAngleSpansGo, pendingOf]
  | c :: rest, none, _, hns => by
    rw [removeAngleSpansGo]
    split
    · next hc =>
      subst hc
      have := removeAngleSpansGo_noSpan_id rest (some []) (by simp)
        (by simpa [pendingOf] using hns)
      simp only [pendingOf, List.reverse_nil, List.singleton_append,
        List.nil_append] at this ⊢
      rw [this]
    · have := removeAngleSpansGo_noSpan_id rest none (by simp)
        (noSpan_cons (by simpa [pendingOf] using hns))
      simp only [pendingOf, List.nil_append] at this ⊢
      rw [this]
  | c :: rest, some buf, hb, hns => by
    rw [removeAngleSpansGo]
    split
    · next hc =>
      split
      · next hbuf =>
        have := removeAngleSpansGo_noSpan_id rest none (by simp)
          (by
            simp only [pendingOf, List.nil_append]
            subst hbuf
            simp only [pendingOf, List.reverse_nil, hc] at hns
            exact noSpan_cons (noSpan_cons hns))
        simp only [pendingOf, List.nil_append] at this
        rw [this]
        subst hbuf
        simp [pendingOf, hc]
      · next hbuf =>
        exfalso
        refine hns ⟨[], buf.reverse, rest, ?_, ?_, ?_⟩
        · simp [pendingOf, hc]
        · simpa using hbuf
        · intro hm
          exact hb buf rfl (List.mem_reverse.mp hm)
    · next hc =>
      have := removeAngleSpansGo_noSpan_id rest (some (c :: buf))
        (by
          intro b hbeq
          cases hbeq
          intro hm
          rcases List.mem_cons.mp hm with rfl | hm2
          · exact hc rfl
          · exact hb buf rfl hm2)
        (by
          simp only [pendingOf, List.reverse_cons, List.append_assoc,
            List.singleton_append]
          simpa [pendingOf, List.append_assoc] using hns)
      simp only [pendingOf, List.reverse_cons, List.append_assoc,
        List.singleton_append] at this
      simp only [pendingOf]
      rw [this]
      simp

theorem removeAngleSpans_noSpan_id {s : Str} (h : ¬ HasSpan s) :
    removeAngleSpans s = s := by
  have := removeAngleSpansGo_noSpan_id s none (by simp) (by simpa [pendingOf] using h)
  simpa [removeAngleSpans, pendingOf] using this

theorem isSpc_cases {c : Char} (h : isSpc c = true) :
    c = ' ' ∨ c = '\t' ∨ c = '\n' ∨ c = '\r' ∨ c = Char.ofNat 11 ∨ c = Char.ofNat 12 := by
  simp only [isSpc, Bool.or_eq_true, decide_eq_true_eq] at h
  tauto

theorem pchar_not_spc {c : Char} (h : (isWordChar c || c = '.') = true) :
    isSpc c = false := by
  cases hs : isSpc c
  · rfl
  · rcases isSpc_cases hs with rfl | rfl | rfl | rfl | rfl | rfl <;>
      exact absurd h (by decide)

theorem spc_not_pchar {c : Char} (h : isSpc c = true) :
    (isWordChar c || c = '.') = false := by
  rcases isSpc_cases h with rfl | rfl | rfl | rfl | rfl | rfl <;> decide

theorem spc_ne_lt {c : Char} (h : isSpc c = true) : ¬ c = '<' := by
  rcases isSpc_cases h with rfl | rfl | rfl | rfl | rfl | rfl <;> decide

theorem pchar_ne_lt {c : Char} (h : (isWordChar c || c = '.') = true) : ¬ c = '<' := by
  intro hc
  subst hc
  exact absurd h (by decide)

theorem takeWhile_all_append (p : Char → Bool) : ∀ (a b : Str),
    (∀ c ∈ a, p c = true) → (a ++ b).takeWhile p = a ++ b.takeWhile p
  | [], b, _ => rfl
  | c :: a2, b, h => by
    rw [List.cons_append, List.takeWhile_cons_of_pos (h c (List.mem_cons_self _ _)),
      takeWhile_all_append p a2 b (fun d hd => h d (List.mem_cons_of_mem _ hd)),
      List.cons_append]

theorem dropWhile_all_append (p : Char → Bool) : ∀ (a b : Str),
    (∀ c ∈ a, p c = true) → (a ++ b).dropWhile p = b.dropWhile p
  | [], b, _ => rfl
  | c :: a2, b, h => by
    rw [List.cons_append, List.dropWhile_cons_of_pos (h c (List.mem_cons_self _ _)),
      dropWhile_all_append p a2 b (fun d hd => h d (List.mem_cons_of_mem _ hd))]

theorem pkgMatchAt_decomp (x : Str) (h : pkgMatchAt x = true) :
    ∃ w1 pk w2 R, x = lit "package" ++ (w1 ++ (pk ++ (w2 ++ ';' :: R))) ∧
      w1 ≠ [] ∧ pk ≠ [] ∧ (∀ c ∈ w1, isSpc c = true) ∧
      (∀ c ∈ pk, (isWordChar c || c = '.') = true) ∧ (∀ c ∈ w2, isSpc c = true) := by
  unfold pkgMatchAt at h
  simp only [Bool.and_eq_true, decide_eq_true_eq, ne_eq] at h
  obtain ⟨hsw, ⟨h1, h2⟩, h3⟩ := h
  obtain ⟨t, ht⟩ := List.isPrefixOf_iff_prefix.mp hsw
  have hdrop : x.drop 7 = t := by rw [← ht]; rfl
  rw [hdrop] at h1 h2 h3
  cases hr4 : ((t.dropWhile isSpc).dropWhile
      (fun d => isWordChar d || d = '.')).dropWhile isSpc with
  | nil =>
    rw [hr4] at h3
    exact absurd h3 (by simp)
  | cons a R =>
    rw [hr4] at h3
    simp only [List.head?_cons, Option.some.injEq] at h3
    subst h3
    refine ⟨t.takeWhile isSpc,
      (t.dropWhile isSpc).takeWhile (fun d => isWordChar d || d = '.'),
      ((t.dropWhile isSpc).dropWhile (fun d => isWordChar d || d = '.')).takeWhile isSpc,
      R, ?_, h1, h2,
      fun c hc => by have h5 := List.mem_takeWhile_imp hc; exact h5,
      fun c hc => by have h5 := List.mem_takeWhile_imp hc; exact h5,
      fun c hc => by have h5 := List.mem_takeWhile_imp hc; exact h5⟩
    rw [← ht]
    congr 1
    conv_lhs => rw [← List.takeWhile_append_dropWhile (p := isSpc) (l := t)]
    congr 1
    conv_lhs => rw [← List.takeWhile_append_dropWhile
      (p := fun d => isWordChar d || d = '.') (l := t.dropWhile isSpc)]
    congr 1
    conv_lhs => rw [← List.takeWhile_append_dropWhile (p := isSpc)
      (l := (t.dropWhile isSpc).dropWhile (fun d => isWordChar d || d = '.'))]
    rw [hr4]

theorem pkgMatchAt_parts (w1 pk w2 S : Str) (hw1 : w1 ≠ []) (hpk : pk ≠ [])
    (hw1s : ∀ c ∈ w1, isSpc c = true)
    (hpkc : ∀ c ∈ pk, (isWordChar c || c = '.') = true)
    (hw2s : ∀ c ∈ w2, isSpc c = true) :
    pkgMatchAt (lit "package" ++ (w1 ++ (pk ++ (w2 ++ ';' :: S)))) = true := by
  have hdrop : (lit "package" ++ (w1 ++ (pk ++ (w2 ++ ';' :: S)))).drop 7
      = w1 ++ (pk ++ (w2 ++ ';' :: S)) := rfl
  have hsw : startsWith (lit "package")
      (lit "package" ++ (w1 ++ (pk ++ (w2 ++ ';' :: S)))) = true :=
    List.isPrefixOf_iff_prefix.mpr ⟨_, rfl⟩
  have htw1 : (w1 ++ (pk ++ (w2 ++ ';' :: S))).takeWhile isSpc = w1 := by
    rw [takeWhile_all_append isSpc w1 _ hw1s]
    cases hpkc2 : pk with
    | nil => exact absurd hpkc2 hpk
    | cons pc pk2 =>
      rw [List.cons_append, List.takeWhile_cons_of_neg, List.append_nil]
      rw [pchar_not_spc (hpkc pc (by rw [hpkc2]; exact List.mem_cons_self _ _))]
      simp
  have hdw1 : (w1 ++ (pk ++ (w2 ++ ';' :: S))).dropWhile isSpc
      = pk ++ (w2 ++ ';' :: S) := by
    rw [dropWhile_all_append isSpc w1 _ hw1s]
    cases hpkc2 : pk with
    | nil => exact absurd hpkc2 hpk
    | cons pc pk2 =>
      rw [List.cons_append, List.dropWhile_cons_of_neg]
      rw [pchar_not_spc (hpkc pc (by rw [hpkc2]; exact List.mem_cons_self _ _))]
      simp
  have htw2 : (pk ++ (w2 ++ ';' :: S)).takeWhile (fun d => isWordChar d || d = '.')
      = pk := by
    rw [takeWhile_all_append _ pk _ hpkc]
    cases hw22 : w2 with
    | nil =>
      rw [List.nil_append, List.takeWhile_cons_of_neg, List.append_nil]
      decide
    | cons ws w22 =>
      rw [List.cons_append, List.takeWhile_cons_of_neg, List.append_nil]
      rw [spc_not_pchar (hw2s ws (by rw [hw22]; exact List.mem_cons_self _ _))]
      simp
  have hdw2 : (pk ++ (w2 ++ ';' :: S)).dropWhile (fun d => isWordChar d || d = '.')
      = w2 ++ ';' :: S := by
    rw [dropWhile_all_append _ pk _ hpkc]
    cases hw22 : w2 with
    | nil =>
      rw [List.nil_append, List.dropWhile_cons_of_neg]
      decide
    | cons ws w22 =>
      rw [List.cons_append, List.dropWhile_cons_of_neg]
      rw [spc_not_pchar (hw2s ws (by rw [hw22]; exact List.mem_cons_self _ _))]
      simp
  have hdw3 : (w2 ++ ';' :: S).dropWhile isSpc = ';' :: S := by
    rw [dropWhile_all_append isSpc w2 _ hw2s, List.dropWhile_cons_of_neg]
    decide
  unfold pkgMatchAt
  simp only [hsw, hdrop, htw1, hdw1, htw2, hdw2, hdw3, Bool.true_and,
    Bool.and_eq_true, decide_eq_true_eq, ne_eq]
  exact ⟨⟨hw1, hpk⟩, rfl⟩

theorem pkgMatchAt_removeAngleSpans {x : Str} (h : pkgMatchAt x = true) :
    pkgMatchAt (removeAngleSpans x) = true := by
  obtain ⟨w1, pk, w2, R, hx, hw1, hpk, hw1s, hpkc, hw2s⟩ := pkgMatchAt_decomp x h
  have hq : '<' ∉ lit "package" ++ (w1 ++ (pk ++ (w2 ++ [';']))) := by
    intro hm
    rcases List.mem_append.mp hm with hm1 | hm1
    · exact absurd hm1 (by decide)
    rcases List.mem_append.mp hm1 with hm2 | hm2
    · exact spc_ne_lt (hw1s _ hm2) rfl
    rcases List.mem_append.mp hm2 with hm3 | hm3
    · exact pchar_ne_lt (hpkc _ hm3) rfl
    rcases List.mem_append.mp hm3 with hm4 | hm4
    · exact spc_ne_lt (hw2s _ hm4) rfl
    · exact absurd (List.mem_singleton.mp hm4) (by decide)
  have hx2 : x = (lit "package" ++ (w1 ++ (pk ++ (w2 ++ [';'])))) ++ R := by
    rw [hx]; simp
  rw [hx2, removeAngleSpans, removeAngleSpansGo_append_no_lt _ _ hq]
  have hre : (lit "package" ++ (w1 ++ (pk ++ (w2 ++ [';'])))) ++ removeAngleSpansGo none R
      = lit "package" ++ (w1 ++ (pk ++ (w2 ++ ';' :: removeAngleSpansGo none R))) := by
    simp
  rw [hre]
  exact pkgMatchAt_parts w1 pk w2 _ hw1 hpk hw1s hpkc hw2s

theorem nothink_of_noSpan {s : Str} (h : ¬ HasSpan s) : ¬ (lit "</think>" <:+: s) :=
  fun hi => h (hasSpanOfInfix hi ⟨[], lit "/think", [], rfl, by decide, by decide⟩)

theorem bt_not_mem_removeAngleSpans {x : Str} (h : Char.ofNat 96 ∉ x) :
    Char.ofNat 96 ∉ removeAngleSpans x :=
  fun hm => h (removeAngleSpans_mem hm)

theorem cleanLlmResponse_id_noSpan (r : Str) (hns : ¬ HasSpan r)
    (hbt : Char.ofNat 96 ∉ r) (hpkg : pkgMatchAt r = true)
    (hcm : existsClassMatch r = true) (hlast : r.getLast? = some rbrace) :
    cleanLlmResponse r = r := by
  simp only [cleanLlmResponse,
    removeThink_id_of_nothink r.length r (nothink_of_noSpan hns),
    removeAngleSpans_noSpan_id hns, removeFenceJava_id r.length r hbt,
    removeTrailingFence_id r hbt, packageSuffix_of_match r hpkg, hcm, if_true,
    truncAfterLastRbrace_id r hlast]
  exact pyStrip_id r (head_p_of_pkgMatch r hpkg) hlast

theorem cleanLlmResponse_strips (x : Str) (h1 : Char.ofNat 96 ∉ x)
    (h2 : ¬ (lit "</think>" <:+: x)) (h3 : pkgMatchAt x = true)
    (h4 : existsClassMatch (removeAngleSpans x) = true)
    (h5 : (removeAngleSpans x).getLast? = some rbrace) :
    cleanLlmResponse x = removeAngleSpans x := by
  have hbt := bt_not_mem_removeAngleSpans h1
  have hpkg := pkgMatchAt_removeAngleSpans h3
  simp only [cleanLlmResponse, removeThink_id_of_nothink x.length x h2,
    removeFenceJava_id _ _ hbt, removeTrailingFence_id _ hbt,
    packageSuffix_of_match _ hpkg, h4, if_true, truncAfterLastRbrace_id _ h5]
  exact pyStrip_id _ (head_p_of_pkgMatch _ hpkg) h5

end Sanitizer

namespace Sanitizer

/-- Claim C10: for every input, the sanitizer's output contains no span
`<[^>]+>` (one or more non-`>` characters between angle brackets); in
particular Java generic type arguments are deleted, so on valid, fence-free
Java using generics the sanitizer is not the identity: `List<String> x`
becomes `List x`. -/
theorem cleanLlmResponse_no_angle_spans :
    (∀ s : Str, ¬ HasSpan (cleanLlmResponse s)) ∧
      cleanLlmResponse (lit "package a;\npublic class T \x7b List<String> x; \x7d") =
        lit "package a;\npublic class T \x7b List x; \x7d" ∧
      cleanLlmResponse (lit "package a;\npublic class T \x7b List<String> x; \x7d") ≠
        lit "package a;\npublic class T \x7b List<String> x; \x7d" :=
  ⟨cleanLlmResponse_noSpan, by decide, by decide⟩

/-- Claim C5 (corrected, half that holds): the sanitizer's output never
contains the literal substring `<think>` — any such occurrence would be an
angle-bracket span, and the second pass removes all of those. -/
theorem cleanLlmResponse_no_think (s : Str) :
    containsSub (lit "<think>") (cleanLlmResponse s) = false :=
  decide_eq_false (fun hinf => cleanLlmResponse_noSpan s
    (hasSpanOfInfix hinf ⟨[], lit "think", [], rfl, by decide, by decide⟩))

/-- Claim C5 counterexample: a triple-backtick fence can survive the
sanitizer — only a leading ```java marker and a trailing ``` run are
removed, so a ```scala fence in the class body is kept verbatim. -/
theorem cleanLlmResponse_fence_survives : containsSub (lit "```")
    (cleanLlmResponse (lit "package a;\npublic class T \x7b\n```scala\nint y;\n\x7d")) =
      true := by
  decide

/-- Claim C6: the sanitizer is idempotent on already-clean Java sources.
Already-clean is formalized as: no backtick (no fence text), no `</think>`
marker, the source begins with a `package ...;` declaration, and its
generics-stripped text still shows a braced `public class` body and ends at
that body's closing brace. Such sources may freely use generics or `<`
comparisons: the first pass maps them to their generics-stripped form
(`cleanLlmResponse_strips`), and a pass over that span-free form is the
identity (`cleanLlmResponse_id_noSpan`). -/
theorem cleanLlmResponse_idempotent_on_clean (x : Str)
    (h1 : Char.ofNat 96 ∉ x) (h2 : containsSub (lit "</think>") x = false)
    (h3 : pkgMatchAt x = true)
    (h4 : existsClassMatch (removeAngleSpans x) = true)
    (h5 : (removeAngleSpans x).getLast? = some rbrace) :
    cleanLlmResponse (cleanLlmResponse x) = cleanLlmResponse x := by
  have hs := cleanLlmResponse_strips x h1 (of_decide_eq_false h2) h3 h4 h5
  rw [hs, cleanLlmResponse_id_noSpan (removeAngleSpans x) (removeAngleSpans_noSpan x)
    (bt_not_mem_removeAngleSpans h1) (pkgMatchAt_removeAngleSpans h3) h4 h5]

/-- Claim C6 witness: a concrete clean class that uses a generic type
(`List<String>`) satisfies every hypothesis and the sanitizer is idempotent
on it — here the first pass is not the identity, yet the second changes
nothing. -/
theorem cleanLlmResponse_idempotent_witness :
    cleanLlmResponse (cleanLlmResponse
        (lit "package a;\npublic class T \x7b List<String> x; \x7d")) =
      cleanLlmResponse (lit "package a;\npublic class T \x7b List<String> x; \x7d") :=
  cleanLlmResponse_idempotent_on_clean _ (by decide) (by decide) (by decide)
    (by decide) (by decide)

end Sanitizer

open JavaSignatureParser


theorem dedupFilter_mem : ∀ (l seen : List Str) (t : Str),
    t ∈ dedupFilter l seen → t ∉ seen ∧ t ∉ primitiveTypes
  | [], seen, t => by simp [dedupFilter]
  | x :: xs, seen, t => by
    simp only [dedupFilter]
    split
    · next h =>
      intro ht
      rcases List.mem_cons.mp ht with rfl | hmem
      · exact ⟨h.2.1, h.2.2⟩
      · have hrec := dedupFilter_mem xs (cleanTypeName x :: seen) t hmem
        exact ⟨fun hs => hrec.1 (List.mem_cons_of_mem _ hs), hrec.2⟩
    · next h => exact dedupFilter_mem xs seen t

theorem dedupFilter_nodup : ∀ (l seen : List Str), (dedupFilter l seen).Nodup
  | [], _ => List.nodup_nil
  | x :: xs, seen => by
    simp only [dedupFilter]
    split
    · next h =>
      refine List.nodup_cons.mpr ⟨fun hmem => ?_, dedupFilter_nodup xs _⟩
      exact (dedupFilter_mem xs _ _ hmem).1 (List.mem_cons_self _ _)
    · next h => exact dedupFilter_nodup xs seen

/-- Claim C8 (corrected): extractAllTypes never returns duplicates and
excludes exactly the parser's nine primitive names (`int`, `long`, `double`,
`float`, `boolean`, `char`, `byte`, `short`, `void`); that set holds neither
boxed names nor `String`, so `Integer`, `Boolean` and `String` are not
excluded. -/
theorem extractAllTypes_nodup_primitive_free (signature : Str) :
    (extractAllTypesFromSignature signature).Nodup ∧
      ∀ t ∈ extractAllTypesFromSignature signature, t ∉ primitiveTypes := by
  unfold extractAllTypesFromSignature
  exact ⟨dedupFilter_nodup _ _, fun t ht => (dedupFilter_mem _ _ t ht).2⟩

/-- Claim C8 counterexample: the boxed names `Integer` and `Boolean` appear
in an output, and so does `String`, which the exclusion set also lacks. -/
theorem extractAllTypes_boxed_included :
    lit "Integer" ∈ extractAllTypesFromSignature (lit "public Integer foo(Boolean b)")
      ∧ lit "Boolean" ∈ extractAllTypesFromSignature (lit "public Integer foo(Boolean b)")
      ∧ extractAllTypesFromSignature (lit "public String foo(int x)") = [lit "String"] := by
  refine ⟨by decide, by decide, by decide⟩

/-- Claim C2 counterexample: the output is not the spec's
`["List", "Map", "Foo", "Baz"]`. -/
theorem extractAllTypes_scenarioA_ne :
    extractAllTypesFromSignature (lit "public List<Map<String,Foo>> bar(int x, Baz y)")
      ≠ [lit "List", lit "Map", lit "Foo", lit "Baz"] := by
  decide

/-- Claim C2 (corrected): on Scenario A's signature
`public List<Map<String,Foo>> bar(int x, Baz y)` the parser returns
`["List", "Baz", "Map<String,Foo"]` — the nested-generic helper is driven by
a `<([^>]+)>` capture that truncates at the first `>`, so `Map` and `Foo` are
never produced as separate entries. -/
theorem extractAllTypes_scenarioA_actual :
    extractAllTypesFromSignature (lit "public List<Map<String,Foo>> bar(int x, Baz y)")
      = [lit "List", lit "Baz", lit "Map<String,Foo"] := by
  decide

namespace Retrieval
open TypeResolver


theorem rankAndTruncate_spec (topK : Nat) (l : List RawResult) :
    (rankAndTruncate topK l).length ≤ topK ∧
      ((rankAndTruncate topK l).map distKey).Sorted (· ≤ ·) := by
  constructor
  · exact List.length_take_le topK _
  · have hs : (l.insertionSort fun a b => distKey a ≤ distKey b).Sorted
        (fun a b => distKey a ≤ distKey b) :=
      List.sorted_insertionSort _ l
    have ht : (rankAndTruncate topK l).Pairwise (fun a b => distKey a ≤ distKey b) :=
      List.Pairwise.sublist (List.take_sublist _ _) hs
    exact (List.pairwise_map).mpr ht

/-- Claim C3 (corrected): the retriever returns at most `topK` items and
their distances are ASCENDING (sorted by `· ≤ ·`), not non-increasing. -/
theorem findRelevantContext_sorted_bounded
    (collab : Str → Nat → WhereClause → Except Str ChromaReply)
    (fc : FileCollab) (idx : TypeIndex) (pp target : Str)
    (desc : Option Str) (topK : Nat) (sig : Option Str) :
    (findRelevantContext collab fc idx pp target desc topK sig).length ≤ topK ∧
      ((findRelevantContext collab fc idx pp target desc topK sig).map distKey).Sorted
        (· ≤ ·) := by
  simp only [findRelevantContext]
  exact rankAndTruncate_spec _ _

/-- Claim C3 counterexample: a concrete run returns distances [20, 50]
(scaled by 100), which are not non-increasing. -/
theorem findRelevantContext_not_nonincreasing :
    cexAscRun.map distKey = [20, 50] ∧
      ¬ (cexAscRun.map distKey).Sorted (fun a b => b ≤ a) := by
  constructor
  · decide
  · decide

theorem foldl_prefix_invariant {α β : Type} (step : List α → β → List α)
    (h : ∀ a x, a <+: step a x) : ∀ (l : List β) (acc : List α),
    acc <+: List.foldl step acc l
  | [], _ => List.prefix_rfl
  | x :: xs, acc2 => (h acc2 x).trans (foldl_prefix_invariant step h xs (step acc2 x))

theorem appendNewByIdPrefix (tag : Str) (hits acc : List RawResult) :
    acc <+: appendNewById tag hits acc := by
  unfold appendNewById
  refine foldl_prefix_invariant _ (fun a x => ?_) hits acc
  cases hx : x.id with
  | none => exact List.prefix_rfl
  | some rid =>
    dsimp only
    split
    · exact List.prefix_append _ _
    · exact List.prefix_rfl

/-- Claim C4 (corrected): the record-definition pass only appends store
results to the current list — it preserves every earlier item — but it
guarantees no definition invariant. -/
theorem ensureRecordDefinitions_appends
    (search : Str → Nat → List (Str × Str) → List RawResult)
    (results : List RawResult) :
    results <+: ensureRecordDefinitions search results := by
  unfold ensureRecordDefinitions
  refine foldl_prefix_invariant _ (fun a rc => ?_) _ results
  exact foldl_prefix_invariant _ (fun a2 q => appendNewByIdPrefix _ _ _) _ a

/-- Claim C4 counterexample: a run whose results mention `record Foo` while
no returned item both contains `record Foo` and has length over 100 — the
store simply has no such snippet to splice. -/
theorem findRelevantContext_record_def_missing :
    (cexRecRun.any fun it => containsSub (lit "record Foo") it.content) = true ∧
      (cexRecRun.any fun it =>
        containsSub (lit "record Foo") it.content && decide (it.content.length > 100)) = false := by
  constructor
  · decide
  · decide

/-- Claim C9: an embedding-store failure is never fatal — a failing store
yields zero results for that query, a run against a store whose first call
fails equals the run that skips that call, and an entirely empty result list
is returned normally. -/
theorem findRelevantContext_store_failure_nonfatal :
    (∀ (msg q : Str) (k : Nat) (f : List (Str × Str)),
        searchSimilarCode (fun _ _ _ => Except.error msg) q k f = []) ∧
      (∀ (collab : Str → Nat → WhereClause → Except Str ChromaReply)
          (fc : FileCollab) (idx : TypeIndex) (pp target : Str)
          (desc : Option Str) (topK : Nat) (sig : Option Str),
        findRelevantContext collab fc idx pp target desc topK sig =
          findRelevantContext (patchStore collab) fc idx pp target desc topK sig) ∧
      findRelevantContext cexFailStore noFileCollab TypeIndex.empty
        (lit "/p") (lit "a.B#m") none 5 none = [] := by
  refine ⟨fun msg q k f => rfl, fun collab fc idx pp target desc topK sig => ?_, by decide⟩
  have hs : searchSimilarCode (patchStore collab) = searchSimilarCode collab := by
    funext q k f
    unfold searchSimilarCode patchStore
    cases h : collab q k (buildWhere f) with
    | error e => simp [h]
    | ok r => simp [h]
  simp only [findRelevantContext, hs]

end Retrieval

namespace TypeResolver


theorem max_attained : ∀ (f : ClassInfo → Nat) (l : List ClassInfo),
    (l.map f).foldr max 0 = 0 ∨ ∃ c ∈ l, f c = (l.map f).foldr max 0
  | _, [] => Or.inl rfl
  | f, c :: cs => by
    simp only [List.map_cons, List.foldr_cons]
    rcases Nat.le_total ((cs.map f).foldr max 0) (f c) with h | h
    · exact Or.inr ⟨c, List.mem_cons_self c cs, (Nat.max_eq_left h).symm⟩
    · rcases max_attained f cs with h0 | ⟨c', hc', he⟩
      · rw [h0] at h ⊢
        rcases Nat.eq_zero_of_le_zero h with hz
        rw [hz]
        exact Or.inl rfl
      · exact Or.inr ⟨c', List.mem_cons_of_mem _ hc', by rw [Nat.max_eq_right h]; exact he⟩

theorem bestBySimilarity_eq (ctx : Str) : ∀ (cands : List ClassInfo) (m : Nat)
    (b : Option ClassInfo),
    bestBySimilarity ctx cands m b =
      if m < (cands.map fun c => calculatePackageSimilarity ctx c.pkg).foldr max 0 then
        cands.find? fun c => calculatePackageSimilarity ctx c.pkg
          = (cands.map fun c => calculatePackageSimilarity ctx c.pkg).foldr max 0
      else b
  | [], m, b => by simp [bestBySimilarity]
  | c :: cs, m, b => by
    simp only [bestBySimilarity, List.map_cons, List.foldr_cons]
    by_cases hsm : calculatePackageSimilarity ctx c.pkg > m
    · rw [if_pos hsm, bestBySimilarity_eq ctx cs]
      rcases Nat.le_total ((cs.map fun c => calculatePackageSimilarity ctx c.pkg).foldr max 0)
          (calculatePackageSimilarity ctx c.pkg) with hge | hle
      · simp only [Nat.max_eq_left hge]
        rw [if_neg (Nat.not_lt.mpr hge), if_pos hsm,
          List.find?_cons_of_pos _ (by simp)]
      · rcases Nat.lt_or_eq_of_le hle with hlt | heq
        · simp only [Nat.max_eq_right hle]
          rw [if_pos hlt, if_pos (Nat.lt_trans hsm hlt),
            List.find?_cons_of_neg _ (by simp; omega)]
        · simp only [Nat.max_eq_right hle]
          rw [if_neg (by omega), if_pos (by omega),
            List.find?_cons_of_pos _ (by simp [heq])]
    · rw [if_neg hsm, bestBySimilarity_eq ctx cs]
      have hle : calculatePackageSimilarity ctx c.pkg ≤ m := Nat.not_lt.mp hsm
      by_cases hm : m < (cs.map fun c => calculatePackageSimilarity ctx c.pkg).foldr max 0
      · simp only [Nat.max_eq_right (Nat.le_trans hle (Nat.le_of_lt hm))]
        rw [if_pos hm, if_pos hm,
          List.find?_cons_of_neg _ (by simp; omega)]
      · rw [if_neg hm,
          if_neg (Nat.not_lt.mpr (Nat.max_le.mpr ⟨hle, Nat.not_lt.mp hm⟩))]

def helperAB : ClassInfo :=
  ⟨lit "Helper", lit "a.b", lit "a.b.Helper", lit "a/b/Helper.java", false, false, false⟩

def helperAC : ClassInfo :=
  ⟨lit "Helper", lit "a.c", lit "a.c.Helper", lit "a/c/Helper.java", false, false, false⟩

def idxScenarioB : TypeIndex :=
  addClassToMapping (addClassToMapping TypeIndex.empty helperAB) helperAC

/-- Claim C7: Scenario B resolves `Helper` from context `a.b.target` to the
`a.b` candidate; in general under ambiguity the resolver returns exactly what
the disambiguation rule dictates: exact package match first, then highest
dot-prefix similarity scanned left to right, then the first-discovered
candidate. -/
theorem resolveType_disambiguation :
    resolveType idxScenarioB (lit "Helper") (some (lit "a.b.target")) = some helperAB ∧
      ∀ (idx : TypeIndex) (name : Str) (ctx : Option Str) (cands : List ClassInfo)
        (direct : ClassInfo),
        alistGet idx.typeMapping name = some direct →
        alistGet idx.ambiguousTypes name = some cands →
        resolveType idx name ctx = resolveDisambiguationSpec cands ctx := by
  constructor
  · decide
  · intro idx name ctx cands direct h1 h2
    unfold resolveType resolveDisambiguationSpec
    rw [h1, h2]
    cases ctx with
    | none => rfl
    | some p =>
      by_cases hp : p ≠ []
      · simp only [if_pos hp]
        cases hf : cands.find? fun c => c.pkg = p with
        | some exact0 => rfl
        | none =>
          rw [bestBySimilarity_eq]
          by_cases hM : 0 < (cands.map fun c => calculatePackageSimilarity p c.pkg).foldr max 0
          · rw [if_pos hM]
            rcases max_attained (fun c => calculatePackageSimilarity p c.pkg) cands with
              h0 | ⟨c', hc', he⟩
            · omega
            · have hfind : (cands.find? fun c => calculatePackageSimilarity p c.pkg
                  = (cands.map fun c => calculatePackageSimilarity p c.pkg).foldr max 0)
                    ≠ none := by
                intro hnone
                have hall := List.find?_eq_none.mp hnone c' hc'
                simp only [decide_eq_true_eq] at hall
                exact hall he
              cases hf2 : cands.find? fun c => calculatePackageSimilarity p c.pkg
                  = (cands.map fun c => calculatePackageSimilarity p c.pkg).foldr max 0 with
              | none => exact absurd hf2 hfind
              | some w => rw [if_pos (by omega)]
          · rw [if_neg hM, if_neg (by omega)]
      · simp only [if_neg hp]

end TypeResolver

namespace FixLoop

theorem compileFixGo_all_fail (compileTest : String → Bool × String)
    (fixCompile : String → String → Option String)
    (hc : ∀ c, (compileTest c).1 = false)
    (hf : ∀ c e, (fixCompile c e).isSome) :
    ∀ (fuel : Nat) (code : String) (attempt : Nat) (recs : List FixAttempt)
      (lastE : Option String),
      (compileFixGo compileTest fixCompile fuel code attempt recs lastE).success = false ∧
      (compileFixGo compileTest fixCompile fuel code attempt recs lastE).attempts
        = attempt + fuel ∧
      (compileFixGo compileTest fixCompile fuel code attempt recs lastE).records.map
          FixAttempt.errClass
        = recs.map FixAttempt.errClass ++ List.replicate fuel ErrClass.compile
  | 0, code, attempt, recs, lastE => by simp [compileFixGo]
  | fuel + 1, code, attempt, recs, lastE => by
    rcases h : compileTest code with ⟨ok, e⟩
    have hok : ok = false := by
      have h1 := hc code
      rw [h] at h1
      exact h1
    subst hok
    simp only [compileFixGo, h]
    cases hfx : fixCompile code e with
    | none =>
      have hsome := hf code e
      rw [hfx] at hsome
      simp at hsome
    | some c2 =>
      have ih := compileFixGo_all_fail compileTest fixCompile hc hf fuel c2 (attempt + 1)
        (recs ++ [⟨ErrClass.compile, e⟩]) (some e)
      simp only [Bool.false_eq_true, if_false]
      refine ⟨ih.1, by rw [ih.2.1]; omega, ?_⟩
      rw [ih.2.2]
      simp [List.replicate_succ]

end FixLoop

namespace FixLoop

theorem compileFixGo_all_fail_code (compileTest : String → Bool × String)
    (fixCompile : String → String → Option String)
    (hc : ∀ c, (compileTest c).1 = false)
    (hf : ∀ c e, (fixCompile c e).isSome) :
    ∀ (fuel : Nat) (code : String) (attempt : Nat) (recs : List FixAttempt)
      (lastE : Option String),
      (compileFixGo compileTest fixCompile fuel code attempt recs lastE).code = none
  | 0, code, attempt, recs, lastE => rfl
  | fuel + 1, code, attempt, recs, lastE => by
    rcases h : compileTest code with ⟨ok, e⟩
    have hok : ok = false := by
      have h1 := hc code
      rw [h] at h1
      exact h1
    subst hok
    simp only [compileFixGo, h]
    cases hfx : fixCompile code e with
    | none => simp
    | some c2 =>
      simp only [Bool.false_eq_true, if_false]
      exact compileFixGo_all_fail_code compileTest fixCompile hc hf fuel c2 (attempt + 1)
        (recs ++ [⟨ErrClass.compile, e⟩]) (some e)

theorem compileAndFixLoop_both_shape (ct : String → Bool × String)
    (fc fr : String → String → Option String) (rt : String → Bool × String)
    (code : String) (maxA : Nat) (cr : PhaseResult)
    (hcr : compileFixPhase ct fc maxA code = cr) (hcode : cr.code = none) :
    compileAndFixLoop ct fc fr rt code maxA "both" =
      (if (runtimeFixPhase ct fc fr rt (maxA - cr.attempts) code).success then
        ⟨true, (runtimeFixPhase ct fc fr rt (maxA - cr.attempts) code).code,
         cr.attempts + (runtimeFixPhase ct fc fr rt (maxA - cr.attempts) code).attempts,
         none, ["compile", "runtime"],
         cr.records ++ (runtimeFixPhase ct fc fr rt (maxA - cr.attempts) code).records⟩
      else
        ⟨false, none,
         cr.attempts + (runtimeFixPhase ct fc fr rt (maxA - cr.attempts) code).attempts,
         (runtimeFixPhase ct fc fr rt (maxA - cr.attempts) code).error,
         ["compile", "runtime"],
         cr.records ++ (runtimeFixPhase ct fc fr rt (maxA - cr.attempts) code).records⟩) := by
  unfold compileAndFixLoop
  rw [if_pos (Or.inr rfl), hcr]
  dsimp only
  rw [if_neg (fun h => absurd h.2 (by decide))]
  rw [if_pos (Or.inr rfl)]
  rw [hcode]
  rfl

/-- Claim C1: in a `both`-strategy session with compile-attempt bound 2 whose
compiler fails every attempt (e.g. `cannot find symbol: class Foo`) and whose
fixer always returns a candidate, the loop ends unsuccessfully after exactly
2 attempts and its FixAttempt records are exactly two of error class
`compile` (one compile-fix request was issued between the two attempts). -/
theorem compileAndFixLoop_both_two_failures (compileTest : String → Bool × String)
    (fixCompile fixRuntime : String → String → Option String)
    (runTest : String → Bool × String) (code : String)
    (hc : ∀ c, (compileTest c).1 = false)
    (hf : ∀ c e, (fixCompile c e).isSome) :
    (compileAndFixLoop compileTest fixCompile fixRuntime runTest code 2 "both").success
        = false ∧
    (compileAndFixLoop compileTest fixCompile fixRuntime runTest code 2 "both").attempts
        = 2 ∧
    (compileAndFixLoop compileTest fixCompile fixRuntime runTest code 2 "both").records.map
        FixAttempt.errClass
      = [ErrClass.compile, ErrClass.compile] := by
  obtain ⟨_, ha, hr⟩ := compileFixGo_all_fail compileTest fixCompile hc hf 2 code 0 [] none
  have hcode := compileFixGo_all_fail_code compileTest fixCompile hc hf 2 code 0 [] none
  rw [compileAndFixLoop_both_shape compileTest fixCompile fixRuntime runTest code 2
    (compileFixPhase compileTest fixCompile 2 code) rfl hcode]
  rw [show (2 - (compileFixPhase compileTest fixCompile 2 code).attempts) = 0 by
    unfold compileFixPhase; rw [ha]]
  rw [show runtimeFixPhase compileTest fixCompile fixRuntime runTest 0 code =
    ⟨false, none, 0, some "runtime fix attempts exhausted", none, []⟩ from rfl]
  rw [if_neg (by simp)]
  refine ⟨rfl, ?_, ?_⟩
  · show (compileFixPhase compileTest fixCompile 2 code).attempts + 0 = 2
    unfold compileFixPhase
    rw [ha]
  · show ((compileFixPhase compileTest fixCompile 2 code).records ++ []).map
      FixAttempt.errClass = _
    unfold compileFixPhase
    rw [List.append_nil, hr]
    rfl

end FixLoop

namespace FixLoop

/-- Claim C1 witness: with the always-failing compiler of Scenario C and an
always-producing fixer, the `both`-strategy loop at bound 2 ends
unsuccessfully after exactly 2 attempts with exactly 2 compile-class fix
records. -/
theorem compileAndFixLoop_scenarioC_witness :
    (compileAndFixLoop cexCompileTest cexCompileFixer cexCompileFixer cexCompileTest
        "new Test()" 2 "both").success = false ∧
      (compileAndFixLoop cexCompileTest cexCompileFixer cexCompileFixer cexCompileTest
          "new Test()" 2 "both").attempts = 2 ∧
      (compileAndFixLoop cexCompileTest cexCompileFixer cexCompileFixer cexCompileTest
          "new Test()" 2 "both").records.map FixAttempt.errClass
        = [ErrClass.compile, ErrClass.compile] :=
  compileAndFixLoop_both_two_failures cexCompileTest cexCompileFixer cexCompileFixer
    cexCompileTest "new Test()" (fun _ => rfl) (fun _ _ => rfl)

end FixLoop

end LLM4Test
